import Mathlib

/-!
Verification development for the `lab0-c` queue implementation
(`queue.c`): an intrusive, circular, doubly-linked list with a sentinel,
storing heap-allocated C strings.

The development has two layers, mirroring the code:

* a *sequence-level* shallow embedding: a live queue is `Option (List element_t)`
  (`none` models a NULL `struct list_head *`), and every queue operation of
  `queue.c` is translated into the transformation it performs on the sequence
  of elements read off the ring from `sentinel->next`;
* a *pointer-level* heap model (`Heap`: `next`/`prev` maps from node ids to
  `Option Nat`, `none` modelling NULL) in which the raw pointer loops of
  `q_reverse`, `q_swap`, the `list_add`/`list_del` primitives and the
  doubly-linked reattachment loop of `q_sort` are transcribed literally and
  proven to preserve the closed-ring invariant.

Payloads are byte strings: `List Nat` holds the bytes of the C string up to
(not including) the NUL terminator.  `strcmp` is the libc comparison the code
uses, transcribed including its stop-at-NUL behaviour.
-/

set_option maxHeartbeats 1000000

namespace Lab0

/-- A payload: the bytes of a C string before the NUL terminator. -/
abbrev Value := List Nat

/-- libc `strcmp`, as called by `queue.c` on element payloads.  The C loop
compares byte by byte and stops at the first difference or at a NUL byte;
a list models the bytes of the string, with an implicit terminating `0`
(so running past the end of the list compares against byte `0`). -/
def strcmp : Value → Value → Int
  | [], [] => 0
  | [], b :: _ => 0 - (b : Int)
  | a :: _, [] => (a : Int)
  | a :: as, b :: bs =>
    if a = b then (if a = 0 then 0 else strcmp as bs) else (a : Int) - (b : Int)

/-- libc `strlen`: number of bytes before the first NUL. -/
def strlen (s : Value) : Nat := (s.takeWhile (fun b => b ≠ 0)).length

/-- The C string actually stored when the code copies `s`
(`strncpy(dst, s, strlen(s) + 1)`): the bytes of `s` before the first NUL. -/
def cstr (s : Value) : Value := s.takeWhile (fun b => b ≠ 0)

/-- A payload with no embedded NUL byte: every string produced by C string
handling in the code satisfies this. -/
def validValue (s : Value) : Prop := ∀ b ∈ s, b ≠ 0

instance (s : Value) : Decidable (validValue s) :=
  inferInstanceAs (Decidable (∀ b ∈ s, b ≠ 0))

theorem cstr_eq_self {s : Value} (h : validValue s) : cstr s = s := by
  simp only [cstr]
  exact List.takeWhile_eq_self_iff.mpr (by intro b hb; simpa using h b hb)

theorem strcmp_nil_le (c : Value) : strcmp [] c ≤ 0 := by
  cases c <;> simp [strcmp]

theorem strcmp_self (a : Value) : strcmp a a = 0 := by
  induction a with
  | nil => rfl
  | cons x as ih => simp [strcmp, ih]

/-- `strcmp` is antisymmetric: swapping the arguments negates the result. -/
theorem strcmp_swap (a : Value) : ∀ b, strcmp b a = -strcmp a b := by
  induction a with
  | nil => intro b; cases b <;> simp [strcmp]
  | cons x as ih =>
    intro b
    cases b with
    | nil => simp [strcmp]
    | cons y bs =>
      by_cases hxy : x = y
      · subst hxy
        by_cases hx0 : x = 0 <;> simp [strcmp, hx0, ih bs]
      · have hyx : ¬ y = x := fun h => hxy h.symm
        simp only [strcmp, if_neg hxy, if_neg hyx]
        ring

/-- Transitivity of the `strcmp`-order. -/
theorem strcmp_le_trans : ∀ a b c : Value,
    strcmp a b ≤ 0 → strcmp b c ≤ 0 → strcmp a c ≤ 0 := by
  intro a
  induction a with
  | nil => intro b c _ _; exact strcmp_nil_le c
  | cons x as ih =>
    intro b c h1 h2
    cases b with
    | nil =>
      have hx : (x : Int) ≤ 0 := by simpa [strcmp] using h1
      have hx0 : x = 0 := by exact_mod_cast le_antisymm hx (by positivity)
      subst hx0
      cases c with
      | nil => simp [strcmp]
      | cons z cs =>
        by_cases hz : (0 : Nat) = z <;> simp [strcmp, hz] <;> omega
    | cons y bs =>
      cases c with
      | nil =>
        have hy : (y : Int) ≤ 0 := by simpa [strcmp] using h2
        have hy0 : y = 0 := by exact_mod_cast le_antisymm hy (by positivity)
        subst hy0
        by_cases hxy : x = 0
        · subst hxy; simp [strcmp]
        · exfalso
          have : (x : Int) - 0 ≤ 0 := by
            simpa [strcmp, hxy] using h1
          have : x = 0 := by exact_mod_cast le_antisymm (by omega) (by positivity)
          exact hxy this
      | cons z cs =>
        by_cases hxy : x = y
        · subst hxy
          by_cases hxz : x = z
          · subst hxz
            by_cases hx0 : x = 0
            · simp [strcmp, hx0]
            · have h1' : strcmp as bs ≤ 0 := by simpa [strcmp, hx0] using h1
              have h2' : strcmp bs cs ≤ 0 := by simpa [strcmp, hx0] using h2
              simpa [strcmp, hx0] using ih bs cs h1' h2'
          · have h2' : (x : Int) - z ≤ 0 := by simpa [strcmp, hxz] using h2
            simpa [strcmp, hxz] using h2'
        · have h1' : (x : Int) - y ≤ 0 := by simpa [strcmp, hxy] using h1
          by_cases hyz : y = z
          · subst hyz
            have hxz := hxy
            simp only [strcmp, if_neg hxz]
            omega
          · have h2' : (y : Int) - z ≤ 0 := by simpa [strcmp, hyz] using h2
            have hxz : ¬ x = z := by
              intro h; subst h
              have hne : (x : Int) ≠ y := by exact_mod_cast hxy
              omega
            simp only [strcmp, if_neg hxz]
            omega

/-- Replacing the right argument by a `strcmp`-equal one does not change
the comparison at all. -/
theorem strcmp_congr_right : ∀ a b c : Value,
    strcmp b c = 0 → strcmp a b = strcmp a c := by
  intro a
  induction a with
  | nil =>
    intro b c h
    cases b with
    | nil =>
      cases c with
      | nil => rfl
      | cons z cs =>
        have : (z : Int) = 0 := by simp [strcmp] at h; omega
        have hz : z = 0 := by exact_mod_cast this
        simp [strcmp, hz]
    | cons y bs =>
      cases c with
      | nil =>
        have hy : y = 0 := by simpa [strcmp] using h
        simp [strcmp, hy]
      | cons z cs =>
        have hyz : y = z := by
          by_contra hne
          have : (y : Int) - z = 0 := by simpa [strcmp, hne] using h
          exact hne (by exact_mod_cast sub_eq_zero.mp this)
        subst hyz
        simp [strcmp]
  | cons x as ih =>
    intro b c h
    cases b with
    | nil =>
      cases c with
      | nil => rfl
      | cons z cs =>
        have : (z : Int) = 0 := by simp [strcmp] at h; omega
        have hz : z = 0 := by exact_mod_cast this
        subst hz
        by_cases hx : x = 0 <;> simp [strcmp, hx]
    | cons y bs =>
      cases c with
      | nil =>
        have hy : y = 0 := by simpa [strcmp] using h
        subst hy
        by_cases hx : x = 0 <;> simp [strcmp, hx]
      | cons z cs =>
        have hyz : y = z := by
          by_contra hne
          have : (y : Int) - z = 0 := by simpa [strcmp, hne] using h
          exact hne (by exact_mod_cast sub_eq_zero.mp this)
        subst hyz
        by_cases hxy : x = y
        · subst hxy
          by_cases hx0 : x = 0
          · simp [strcmp, hx0]
          · have h' : strcmp bs cs = 0 := by simpa [strcmp, hx0] using h
            simp [strcmp, hx0, ih bs cs h']
        · simp [strcmp, hxy]

theorem strcmp_congr_left {b c : Value} (h : strcmp b c = 0) (a : Value) :
    strcmp b a = strcmp c a := by
  rw [strcmp_swap a b, strcmp_swap a c, strcmp_congr_right a b c h]

theorem strcmp_zero_symm {a b : Value} (h : strcmp a b = 0) : strcmp b a = 0 := by
  rw [strcmp_swap]; omega

/-- `strcmp`-equality is transitive. -/
theorem strcmp_eq_trans {a b c : Value}
    (h1 : strcmp a b = 0) (h2 : strcmp b c = 0) : strcmp a c = 0 := by
  rw [strcmp_congr_right a b c h2] at h1
  exact h1

/-- Totality of the `strcmp`-order. -/
theorem strcmp_total (a b : Value) : strcmp a b ≤ 0 ∨ strcmp b a ≤ 0 := by
  rcases le_or_lt (strcmp a b) 0 with h | h
  · exact Or.inl h
  · right; rw [strcmp_swap]; omega

/-- `element_t` (queue.h): an owned payload plus the identity of the embedded
`struct list_head` node (the node's address is what distinguishes two elements
holding equal payloads). -/
structure element_t where
  value : Value
  node : Nat
  deriving DecidableEq, Repr

/-- Ascending byte-wise order on elements, as compared by the code. -/
def ele_le (x y : element_t) : Prop := strcmp x.value y.value ≤ 0

/-- A queue pointer: `none` is a NULL `struct list_head *`; `some l` is a live
list whose ring holds the elements of `l` in `sentinel->next` order. -/
abbrev Queue := Option (List element_t)

/-- The `list_for_each` counting loop of `q_size` (queue.c:202-204). -/
def sizeLoop : List element_t → Nat
  | [] => 0
  | _ :: rest => sizeLoop rest + 1

/-- `q_size` (queue.c:194-207): 0 for a NULL list, otherwise count the nodes
by full traversal of the ring. -/
def q_size : Queue → Nat
  | none => 0
  | some l => sizeLoop l

/-- `__q_insert` (queue.c:55-77) with an explicit allocation oracle: `m1` says
whether `malloc(sizeof(element_t))` returns storage, `m2` whether the payload
`malloc(len + 1)` does.  Result: the payload actually stored (`none` on
failure), the number of `malloc`s that returned storage, and the number of
`free`s performed before returning. -/
def __q_insert (s : Option Value) (m1 m2 : Bool) : Option Value × Nat × Nat :=
  match s with
  | none => (none, 0, 0)
  | some sv =>
    if m1 then
      if m2 then (some (cstr sv), 2, 0)
      else (none, 1, 1)
    else (none, 0, 0)

/-- `q_insert_head` (queue.c:85-100): NULL check, `__q_insert`, then
`list_add(&ele->list, head)` links the new element right after the sentinel.
`node` is the address of the freshly allocated node.  Result: (return value,
queue state, mallocs served, frees performed). -/
def q_insert_head (q : Queue) (s : Option Value) (m1 m2 : Bool) (node : Nat) :
    Bool × Queue × Nat × Nat :=
  match q with
  | none => (false, none, 0, 0)
  | some l =>
    match __q_insert s m1 m2 with
    | (some v, a, f) => (true, some (⟨v, node⟩ :: l), a, f)
    | (none, a, f) => (false, some l, a, f)

/-- `q_insert_tail` (queue.c:109-124): same, but `list_add_tail` links the new
element right before the sentinel. -/
def q_insert_tail (q : Queue) (s : Option Value) (m1 m2 : Bool) (node : Nat) :
    Bool × Queue × Nat × Nat :=
  match q with
  | none => (false, none, 0, 0)
  | some l =>
    match __q_insert s m1 m2 with
    | (some v, a, f) => (true, some (l ++ [⟨v, node⟩]), a, f)
    | (none, a, f) => (false, some l, a, f)

/-- `q_remove_head` (queue.c:140-156).  `sp` says whether the out-buffer
pointer is non-NULL, `bufsize` is its capacity.  Result: (removed element,
queue state, C string left in the buffer — `none` when the buffer is not
written).  `strncpy(sp, value, bufsize - 1)` followed by
`sp[bufsize - 1] = '\x27;0'` leaves the first `bufsize - 1` bytes of the payload
as a NUL-terminated string. -/
def q_remove_head (q : Queue) (sp : Bool) (bufsize : Nat) :
    Option element_t × Queue × Option Value :=
  match q with
  | none => (none, none, none)
  | some [] => (none, some [], none)
  | some (x :: rest) =>
    (some x, some rest,
      if sp && (bufsize != 0) then some ((cstr x.value).take (bufsize - 1))
      else none)

/-- `q_remove_tail` (queue.c:162-178): same at `head->prev`. -/
def q_remove_tail (q : Queue) (sp : Bool) (bufsize : Nat) :
    Option element_t × Queue × Option Value :=
  match q with
  | none => (none, none, none)
  | some [] => (none, some [], none)
  | some (x :: rest) =>
    let last := (x :: rest).getLast (List.cons_ne_nil x rest)
    (some last, some (x :: rest).dropLast,
      if sp && (bufsize != 0) then some ((cstr last.value).take (bufsize - 1))
      else none)

/-- The slow/fast walk of `q_delete_mid` (queue.c:225-228): both pointers start
at the first element; while `fast` and `fast->next` are real nodes, `slow`
advances one link and `fast` two.  The argument is the suffix of the list from
`fast` on; the result is how many steps `slow` takes, i.e. `slow`'s final
index. -/
def midWalk : List element_t → Nat
  | [] => 0
  | [_] => 0
  | _ :: _ :: rest => midWalk rest + 1

/-- `q_delete_mid` (queue.c:217-237): NULL/empty guard, slow/fast walk, then
`list_del(slow)` and destruction of that element. -/
def q_delete_mid (q : Queue) : Bool × Queue :=
  match q with
  | none => (false, none)
  | some [] => (false, some [])
  | some (x :: rest) =>
    (true, some ((x :: rest).eraseIdx (midWalk (x :: rest))))

/-- The `list_for_each_entry_safe` loop of `q_delete_dup` (queue.c:256-268)
with its `dup` flag.  `pos` is the list head; the lookahead `next` is the
following element (the sentinel once the tail is reached).  When
`strcmp(pos->value, next->value) == 0` the code deletes `pos` and sets `dup`;
otherwise, if `dup` is set, it deletes `pos` (the last member of the run) and
clears `dup`; otherwise `pos` survives. -/
def dedupLoop (dup : Bool) : List element_t → List element_t
  | [] => []
  | [x] => if dup then [] else [x]
  | x :: y :: rest =>
    if strcmp x.value y.value = 0 then dedupLoop true (y :: rest)
    else if dup then dedupLoop false (y :: rest)
    else x :: dedupLoop false (y :: rest)

/-- `q_delete_dup` (queue.c:248-271): fails only on a NULL list. -/
def q_delete_dup (q : Queue) : Bool × Queue :=
  match q with
  | none => (false, none)
  | some l => (true, some (dedupLoop false l))

/-- Spec-side delete-duplicates (spec §4.3): every maximal run of two or more
adjacent `strcmp`-equal elements is removed entirely (every member, not just
the extras); an element whose payload differs from both immediate neighbours
is left in place, in its original relative order. -/
def dedupSpec : List element_t → List element_t
  | [] => []
  | [x] => [x]
  | x :: y :: rest =>
    if strcmp x.value y.value = 0 then
      dedupSpec (rest.dropWhile (fun z => strcmp x.value z.value == 0))
    else x :: dedupSpec (y :: rest)
termination_by l => l.length
decreasing_by
  all_goals simp only [List.length_cons]
  · exact Nat.lt_succ_of_le (Nat.le_succ_of_le (List.dropWhile_sublist _).length_le)
  · omega

/-- Effect of one pass of the `q_swap` loop (queue.c:283-289): each visited
node is unlinked and re-linked immediately after its successor
(`list_del(pos); list_add(pos, pos->next)`), and the walk resumes after the
swapped pair; the loop breaks when `pos->next` is the sentinel, leaving a
trailing unpaired node in place.  (`swapLoop_ring` below proves the literal
pointer loop realises exactly this on the ring.) -/
def swapPairs {α : Type} : List α → List α
  | x :: y :: rest => y :: x :: swapPairs rest
  | l => l

/-- `q_swap` (queue.c:276-290): no effect when the list is NULL, empty
(`list_empty`) or has one element (`list_is_singular`). -/
def q_swap : Queue → Queue
  | none => none
  | some l => if l.length ≤ 1 then some l else some (swapPairs l)

/-- `q_reverse` (queue.c:299-314): the do/while walk exchanges every node's
`next` and `prev` pointers, sentinel included, which reverses the element
order.  (`revLoop_ring` below proves the literal pointer loop realises exactly
this on the ring.)  Guards: NULL, `list_empty`, `list_is_singular`. -/
def q_reverse : Queue → Queue
  | none => none
  | some l => if l.length ≤ 1 then some l else some l.reverse

/-- The slow/fast walk of `__q_split_into_two` (queue.c:318-330) on a
NUL-terminated chain: while `fast` and `fast->next` are non-NULL, `slow`
advances one node and `fast` two; the chain is cut just before `slow`
(`slow->prev->next = NULL`).  The argument is the suffix from `fast` on; the
result counts `slow`'s steps, i.e. the length of the left part. -/
def splitWalk : List element_t → Nat
  | [] => 0
  | [_] => 0
  | _ :: _ :: rest => splitWalk rest + 1

theorem splitWalk_eq : ∀ l : List element_t, splitWalk l = l.length / 2
  | [] => rfl
  | [_] => by simp [splitWalk]
  | _ :: _ :: rest => by
    simp only [splitWalk, splitWalk_eq rest, List.length_cons]
    omega

theorem midWalk_eq : ∀ l : List element_t, midWalk l = l.length / 2
  | [] => rfl
  | [_] => by simp [midWalk]
  | _ :: _ :: rest => by
    simp only [midWalk, midWalk_eq rest, List.length_cons]
    omega

/-- `__q_merge_two_lists` (queue.c:333-359): repeatedly take the
`strcmp`-lesser head, the left head on ties (`<= 0`); when one chain runs out,
`*ptr = (uintptr_t)left | (uintptr_t)right` appends the surviving chain. -/
def __q_merge_two_lists : List element_t → List element_t → List element_t
  | [], r => r
  | l, [] => l
  | x :: xs, y :: ys =>
    if strcmp x.value y.value ≤ 0 then x :: __q_merge_two_lists xs (y :: ys)
    else y :: __q_merge_two_lists (x :: xs) ys

/-- `__q_sort` (queue.c:363-376): if the chain has a second node, split it at
the midpoint, sort both halves recursively and merge them. -/
def __q_sort : List element_t → List element_t
  | [] => []
  | [x] => [x]
  | x :: y :: rest =>
    __q_merge_two_lists
      (__q_sort ((x :: y :: rest).take (splitWalk (x :: y :: rest))))
      (__q_sort ((x :: y :: rest).drop (splitWalk (x :: y :: rest))))
termination_by l => l.length
decreasing_by
  · simp only [List.length_take, splitWalk_eq, List.length_cons]
    omega
  · simp only [List.length_drop, splitWalk_eq, List.length_cons]
    omega

/-- `q_sort` (queue.c:383-406): no effect on a NULL, empty or singular list;
otherwise break the ring into a NUL-terminated chain, run `__q_sort`, and
rebuild the `prev` links and circularity (the rebuild loop is transcribed at
pointer level as `rebuildLoop` below). -/
def q_sort : Queue → Queue
  | none => none
  | some l => if l.length ≤ 1 then some l else some (__q_sort l)

/-- A driver step for the size claim: one queue call, inserts running with a
cooperative allocator. -/
inductive QOp where
  | insH (v : Value) (node : Nat)
  | insT (v : Value) (node : Nat)
  | remH
  | remT

/-- Apply one operation to the current queue state. -/
def qstep (q : Queue) : QOp → Queue
  | .insH v node => (q_insert_head q (some v) true true node).2.1
  | .insT v node => (q_insert_tail q (some v) true true node).2.1
  | .remH => (q_remove_head q false 0).2.1
  | .remT => (q_remove_tail q false 0).2.1

/-- Run a sequence of operations starting from the empty queue (`q_new`). -/
def qexec (ops : List QOp) : Queue := ops.foldl qstep (some [])

/-! ### Delete-duplicates: the loop agrees with the spec-side description -/

theorem dropWhile_congr_pivot {x y : element_t} (h : strcmp x.value y.value = 0)
    (l : List element_t) :
    l.dropWhile (fun z => strcmp x.value z.value == 0) =
    l.dropWhile (fun z => strcmp y.value z.value == 0) := by
  induction l with
  | nil => rfl
  | cons a l ih =>
    simp only [List.dropWhile_cons]
    rw [strcmp_congr_left h a.value]
    split
    · exact ih
    · rfl

/-- Once the `dup` flag is set, the current element and the whole remaining
run of elements `strcmp`-equal to it are deleted, and the walk resumes with
the flag clear. -/
theorem dedupLoop_true_eq (x : element_t) :
    ∀ l, dedupLoop true (x :: l) =
      dedupLoop false (l.dropWhile (fun z => strcmp x.value z.value == 0)) := by
  intro l
  induction l generalizing x with
  | nil => rfl
  | cons y r ih =>
    by_cases h : strcmp x.value y.value = 0
    · simp only [dedupLoop, if_pos h, List.dropWhile_cons, h]
      rw [ih y, dropWhile_congr_pivot h r]
      simp
    · simp only [dedupLoop, if_neg h, List.dropWhile_cons]
      have : (strcmp x.value y.value == 0) = false := by simpa using h
      rw [this]
      simp [dedupLoop]

/-- The `q_delete_dup` loop computes exactly the spec-side
delete-duplicates. -/
theorem dedupLoop_eq_dedupSpec : ∀ l, dedupLoop false l = dedupSpec l
  | [] => by simp [dedupLoop, dedupSpec]
  | [x] => by simp [dedupLoop, dedupSpec]
  | x :: y :: rest => by
    by_cases h : strcmp x.value y.value = 0
    · rw [dedupSpec, if_pos h]
      simp only [dedupLoop, if_pos h]
      rw [dedupLoop_true_eq y rest, dropWhile_congr_pivot (strcmp_zero_symm h) rest]
      exact dedupLoop_eq_dedupSpec _
    · rw [dedupSpec, if_neg h]
      simp only [dedupLoop, if_neg h, Bool.false_eq_true, if_false]
      rw [dedupLoop_eq_dedupSpec (y :: rest)]
termination_by l => l.length
decreasing_by
  all_goals simp only [List.length_cons]
  · exact Nat.lt_succ_of_le (Nat.le_succ_of_le (List.dropWhile_sublist _).length_le)
  · omega

/-! ### Merge sort: permutation, sortedness, stability -/

theorem merge_perm : ∀ l r : List element_t,
    (__q_merge_two_lists l r).Perm (l ++ r)
  | [], r => by simp [__q_merge_two_lists]
  | x :: xs, [] => by simp [__q_merge_two_lists]
  | x :: xs, y :: ys => by
    rw [__q_merge_two_lists]
    split
    · exact (merge_perm xs (y :: ys)).cons x
    · exact ((merge_perm (x :: xs) ys).cons y).trans List.perm_middle.symm
termination_by l r => l.length + r.length

theorem mem_merge {a : element_t} {l r : List element_t} :
    a ∈ __q_merge_two_lists l r ↔ a ∈ l ∨ a ∈ r := by
  rw [(merge_perm l r).mem_iff, List.mem_append]

theorem merge_sorted : ∀ l r : List element_t,
    l.Pairwise ele_le → r.Pairwise ele_le →
    (__q_merge_two_lists l r).Pairwise ele_le
  | [], r => fun _ hr => by simpa [__q_merge_two_lists] using hr
  | x :: xs, [] => fun hl _ => by simpa [__q_merge_two_lists] using hl
  | x :: xs, y :: ys => fun hl hr => by
    rw [List.pairwise_cons] at hl hr
    rw [__q_merge_two_lists]
    split
    · rename_i hxy
      rw [List.pairwise_cons]
      refine ⟨fun b hb => ?_, merge_sorted xs (y :: ys) hl.2 (List.pairwise_cons.mpr hr)⟩
      rcases mem_merge.mp hb with hb | hb
      · exact hl.1 b hb
      · rcases List.mem_cons.mp hb with rfl | hb
        · exact hxy
        · exact strcmp_le_trans _ _ _ hxy (hr.1 b hb)
    · rename_i hxy
      have hyx : ele_le y x := by
        have := strcmp_swap x.value y.value
        simp only [ele_le] at *
        omega
      rw [List.pairwise_cons]
      refine ⟨fun b hb => ?_, merge_sorted (x :: xs) ys (List.pairwise_cons.mpr hl) hr.2⟩
      rcases mem_merge.mp hb with hb | hb
      · rcases List.mem_cons.mp hb with rfl | hb
        · exact hyx
        · exact strcmp_le_trans _ _ _ hyx (hl.1 b hb)
      · exact hr.1 b hb
termination_by l r => l.length + r.length

theorem sort_perm : ∀ l : List element_t, (__q_sort l).Perm l
  | [] => by simp [__q_sort]
  | [x] => by simp [__q_sort]
  | x :: y :: rest => by
    rw [__q_sort]
    have h3 := (merge_perm
        (__q_sort ((x :: y :: rest).take (splitWalk (x :: y :: rest))))
        (__q_sort ((x :: y :: rest).drop (splitWalk (x :: y :: rest))))).trans
      ((sort_perm ((x :: y :: rest).take (splitWalk (x :: y :: rest)))).append
        (sort_perm ((x :: y :: rest).drop (splitWalk (x :: y :: rest)))))
    rwa [List.take_append_drop] at h3
termination_by l => l.length
decreasing_by
  all_goals simp only [List.length_take, List.length_drop, splitWalk_eq, List.length_cons]
  all_goals omega

theorem sort_sorted : ∀ l : List element_t, (__q_sort l).Pairwise ele_le
  | [] => by simp [__q_sort]
  | [x] => by simp [__q_sort]
  | x :: y :: rest => by
    rw [__q_sort]
    exact merge_sorted _ _ (sort_sorted _) (sort_sorted _)
termination_by l => l.length
decreasing_by
  all_goals simp only [List.length_take, List.length_drop, splitWalk_eq, List.length_cons]
  all_goals omega

/-- Merging keeps each `strcmp`-equivalence class in order: all key-`p`
elements of the (sorted) left chain precede the key-`p` elements of the right
chain, because ties always take the left head. -/
theorem merge_stable : ∀ l r : List element_t, l.Pairwise ele_le → ∀ p : Value,
    (__q_merge_two_lists l r).filter (fun e => strcmp e.value p == 0) =
      l.filter (fun e => strcmp e.value p == 0) ++
      r.filter (fun e => strcmp e.value p == 0)
  | [], r => by simp [__q_merge_two_lists]
  | x :: xs, [] => by simp [__q_merge_two_lists]
  | x :: xs, y :: ys => fun hl p => by
    rw [List.pairwise_cons] at hl
    rw [__q_merge_two_lists]
    split
    · rename_i hxy
      simp only [List.filter_cons]
      rw [merge_stable xs (y :: ys) hl.2 p]
      split <;> simp [List.filter_cons]
    · rename_i hxy
      have hyx : strcmp y.value x.value < 0 := by
        have := strcmp_swap x.value y.value
        omega
      simp only [List.filter_cons (x := y)]
      rw [merge_stable (x :: xs) ys (List.pairwise_cons.mpr hl) p]
      by_cases hyp : strcmp y.value p = 0
      · have hxnil : (x :: xs).filter (fun e => strcmp e.value p == 0) = [] := by
          rw [List.filter_eq_nil_iff]
          intro b hb
          have hxp : ¬ strcmp x.value p ≤ 0 := by
            rw [← strcmp_congr_right x.value y.value p hyp]
            omega
          rcases List.mem_cons.mp hb with rfl | hb
          · simpa using fun h => hxp (le_of_eq h)
          · intro hbp
            exact hxp (strcmp_le_trans _ _ _ (hl.1 b hb) (le_of_eq (by simpa using hbp)))
        rw [hxnil]
        simp [hyp]
      · have : (strcmp y.value p == 0) = false := by simpa using hyp
        rw [this]
        simp
termination_by l r => l.length + r.length

theorem sort_stable : ∀ (l : List element_t) (p : Value),
    (__q_sort l).filter (fun e => strcmp e.value p == 0) =
      l.filter (fun e => strcmp e.value p == 0)
  | [], _ => by simp [__q_sort]
  | [x], _ => by simp [__q_sort]
  | x :: y :: rest, p => by
    rw [__q_sort]
    rw [merge_stable _ _ (sort_sorted _) p, sort_stable _ p, sort_stable _ p,
      ← List.filter_append, List.take_append_drop]
termination_by l => l.length
decreasing_by
  all_goals simp only [List.length_take, List.length_drop, splitWalk_eq, List.length_cons]
  all_goals omega

/-! ### Pointer-level heap model of the sentinel ring

Node ids stand for `struct list_head *` addresses; a link field holds
`none` for NULL.  The `list.h` primitives the queue code calls
(`list_add`, `list_add_tail`, `list_del`) are not part of `queue.c`;
they are modelled from the spec (§4.1): O(1) pointer rewrites following
the standard sentinel-ring semantics, `unlink` leaving the unlinked
node's own fields untouched so it can be relinked. -/

/-- The pointer heap: each node's stored `next` and `prev` fields. -/
structure Heap where
  next : Nat → Option Nat
  prev : Nat → Option Nat

theorem Heap.ext' {h g : Heap}
    (hn : ∀ z, h.next z = g.next z) (hp : ∀ z, h.prev z = g.prev z) : h = g := by
  cases h; cases g
  simp only [Heap.mk.injEq]
  exact ⟨funext hn, funext hp⟩

/-- Write a node's `next` field. -/
def upNext (h : Heap) (x : Nat) (v : Option Nat) : Heap :=
  ⟨fun z => if z = x then v else h.next z, h.prev⟩

/-- Write a node's `prev` field. -/
def upPrev (h : Heap) (x : Nat) (v : Option Nat) : Heap :=
  ⟨h.next, fun z => if z = x then v else h.prev z⟩

@[simp] theorem upNext_next (h : Heap) (x : Nat) (v : Option Nat) (z : Nat) :
    (upNext h x v).next z = if z = x then v else h.next z := rfl

@[simp] theorem upNext_prev (h : Heap) (x : Nat) (v : Option Nat) (z : Nat) :
    (upNext h x v).prev z = h.prev z := rfl

@[simp] theorem upPrev_next (h : Heap) (x : Nat) (v : Option Nat) (z : Nat) :
    (upPrev h x v).next z = h.next z := rfl

@[simp] theorem upPrev_prev (h : Heap) (x : Nat) (v : Option Nat) (z : Nat) :
    (upPrev h x v).prev z = if z = x then v else h.prev z := rfl

/-- Consecutive nodes of `l` are doubly linked in `h`:
for each adjacent pair `x, y`, `x->next == y` and `y->prev == x`. -/
def chainLinks (h : Heap) : List Nat → Prop
  | [] => True
  | [_] => True
  | x :: y :: rest => h.next x = some y ∧ h.prev y = some x ∧ chainLinks h (y :: rest)

/-- The closed-ring invariant of a live list: the sentinel `s` and the
element nodes `ns` (in `next` order) are pairwise distinct and doubly
linked into the cycle `s → ns₀ → … → s`. -/
def isRing (h : Heap) (s : Nat) (ns : List Nat) : Prop :=
  (s :: ns).Nodup ∧ chainLinks h (s :: ns ++ [s])

theorem chainLinks_nil (h : Heap) : chainLinks h [] := trivial

theorem chainLinks_singleton (h : Heap) (x : Nat) : chainLinks h [x] := trivial

theorem chainLinks_tail {h : Heap} : ∀ {l : List Nat} {x : Nat},
    chainLinks h (x :: l) → chainLinks h l := by
  intro l x hl
  cases l with
  | nil => trivial
  | cons y rest => exact hl.2.2

/-- Splitting a doubly linked chain at an append point. -/
theorem chainLinks_append_iff (h : Heap) : ∀ (A B : List Nat), A ≠ [] → B ≠ [] →
    (chainLinks h (A ++ B) ↔ chainLinks h A ∧ chainLinks h B ∧
      ∀ a b, A.getLast? = some a → B.head? = some b →
        h.next a = some b ∧ h.prev b = some a)
  | [], _, hA, _ => absurd rfl hA
  | [a], B, _, hB => by
    cases B with
    | nil => exact absurd rfl hB
    | cons b B' =>
      simp only [List.cons_append, List.nil_append, chainLinks, List.getLast?_singleton,
        List.head?_cons, Option.some.injEq, chainLinks_singleton, true_and]
      constructor
      · rintro ⟨h1, h2, h3⟩
        exact ⟨h3, fun a' b' ha' hb' => by subst ha'; subst hb'; exact ⟨h1, h2⟩⟩
      · rintro ⟨h3, hpair⟩
        obtain ⟨h1, h2⟩ := hpair a b rfl rfl
        exact ⟨h1, h2, h3⟩
  | a :: a' :: A', B, _, hB => by
    have ih := chainLinks_append_iff h (a' :: A') B (by simp) hB
    constructor
    · rintro ⟨h1, h2, h3⟩
      obtain ⟨hA', hB', hpair'⟩ := ih.mp h3
      exact ⟨⟨h1, h2, hA'⟩, hB', fun p q hp hq => hpair' p q (by simpa using hp) hq⟩
    · rintro ⟨⟨h1, h2, hA'⟩, hB', hpair⟩
      exact ⟨h1, h2, ih.mpr ⟨hA', hB', fun p q hp hq => hpair p q (by simpa using hp) hq⟩⟩

/-- `chainLinks` only looks at the fields of the listed nodes. -/
theorem chainLinks_congr {h h' : Heap} : ∀ {l : List Nat},
    (∀ a ∈ l, h'.next a = h.next a ∧ h'.prev a = h.prev a) →
    chainLinks h l → chainLinks h' l := by
  intro l
  induction l with
  | nil => intro _ _; trivial
  | cons x l ih =>
    intro hagree hl
    cases l with
    | nil => trivial
    | cons y rest =>
      obtain ⟨h1, h2, h3⟩ := hl
      refine ⟨?_, ?_, ih (fun a ha => hagree a (List.mem_cons_of_mem x ha)) h3⟩
      · rw [(hagree x (by simp)).1]; exact h1
      · rw [(hagree y (by simp)).2]; exact h2

/-- Writing the `next` field of a node that is not an interior source
(equivalently: at most the last node) preserves a doubly linked chain. -/
theorem chainLinks_upNext {h : Heap} {z : Nat} {v : Option Nat} :
    ∀ {l : List Nat}, chainLinks h l → z ∉ l.dropLast → chainLinks (upNext h z v) l := by
  intro l
  induction l with
  | nil => intro _ _; trivial
  | cons x l ih =>
    intro hl hz
    cases l with
    | nil => trivial
    | cons y rest =>
      obtain ⟨h1, h2, h3⟩ := hl
      rw [List.dropLast_cons₂, List.mem_cons, not_or] at hz
      refine ⟨?_, h2, ih h3 hz.2⟩
      simp only [upNext_next, if_neg (fun he : x = z => hz.1 he.symm), h1]

/-- Writing the `prev` field of a node not in the tail preserves a doubly
linked chain. -/
theorem chainLinks_upPrev {h : Heap} {z : Nat} {v : Option Nat} :
    ∀ {l : List Nat}, chainLinks h l → z ∉ l.tail → chainLinks (upPrev h z v) l := by
  intro l
  induction l with
  | nil => intro _ _; trivial
  | cons x l ih =>
    intro hl hz
    cases l with
    | nil => trivial
    | cons y rest =>
      obtain ⟨h1, h2, h3⟩ := hl
      simp only [List.tail_cons, List.mem_cons, not_or] at hz
      refine ⟨h1, ?_, ih h3 hz.2⟩
      simp only [upPrev_prev, if_neg (fun he : y = z => hz.1 he.symm), h2]

/-- Every non-final node of a doubly linked chain has a real successor,
doubly linked back to it. -/
theorem chainLinks_next_of_mem_dropLast {h : Heap} : ∀ {l : List Nat} {x : Nat},
    chainLinks h l → x ∈ l.dropLast →
    ∃ y, h.next x = some y ∧ h.prev y = some x ∧ y ∈ l.tail := by
  intro l
  induction l with
  | nil => intro x _ hx; simp at hx
  | cons a l ih =>
    intro x hl hx
    cases l with
    | nil => simp at hx
    | cons y rest =>
      obtain ⟨h1, h2, h3⟩ := hl
      rw [List.dropLast_cons₂, List.mem_cons] at hx
      rcases hx with rfl | hx
      · exact ⟨y, h1, h2, by simp⟩
      · obtain ⟨w, hw1, hw2, hw3⟩ := ih h3 hx
        exact ⟨w, hw1, hw2, by simp [List.mem_cons]; right; simpa using hw3⟩

/-- Every non-initial node of a doubly linked chain has a real predecessor,
doubly linked to it. -/
theorem chainLinks_prev_of_mem_tail {h : Heap} : ∀ {l : List Nat} {x : Nat},
    chainLinks h l → x ∈ l.tail →
    ∃ y, h.prev x = some y ∧ h.next y = some x := by
  intro l
  induction l with
  | nil => intro x _ hx; simp at hx
  | cons a l ih =>
    intro x hl hx
    cases l with
    | nil => simp at hx
    | cons y rest =>
      obtain ⟨h1, h2, h3⟩ := hl
      simp only [List.tail_cons, List.mem_cons] at hx
      rcases hx with rfl | hx
      · exact ⟨a, h2, h1⟩
      · exact ih h3 (by simpa using hx)

/-- Walk `k` steps along `next` from `p` (NULL propagates). -/
def followN (h : Heap) : Option Nat → Nat → Option Nat
  | p, 0 => p
  | none, _ + 1 => none
  | some x, k + 1 => followN h (h.next x) k

theorem getLast_not_mem_dropLast {l : List Nat} (hl : l ≠ []) (hnd : l.Nodup) :
    l.getLast hl ∉ l.dropLast := by
  intro hmem
  conv at hnd => rw [← List.dropLast_append_getLast hl]
  rw [List.nodup_append] at hnd
  exact hnd.2.2 hmem (by simp)

/-- Modelled from the spec (§4.1 `unlink`): `list_del(node)` is the O(1)
rewrite `node->prev->next = node->next; node->next->prev = node->prev`.
The unlinked node's own fields are untouched, so the caller can relink it;
a NULL neighbour faults (`none`). -/
def list_del_ptr (h : Heap) (x : Nat) : Option Heap :=
  match h.next x, h.prev x with
  | some n, some p => some (upNext (upPrev h n (some p)) p (some n))
  | _, _ => none

/-- Modelled from the spec (§4.1 `link-after`): `list_add(node, anchor)`
inserts `node` between `anchor` and `anchor->next` by four pointer writes. -/
def list_add_ptr (h : Heap) (node anchor : Nat) : Option Heap :=
  match h.next anchor with
  | some nx =>
    some (upNext (upPrev (upNext (upPrev h nx (some node)) node (some nx))
      node (some anchor)) anchor (some node))
  | none => none

/-- Modelled from the spec (§4.1 `link-before`): `list_add_tail(node, head)`
inserts `node` between `head->prev` and `head`. -/
def list_add_tail_ptr (h : Heap) (node head : Nat) : Option Heap :=
  match h.prev head with
  | some pv =>
    some (upNext (upPrev (upNext (upPrev h head (some node)) node (some head))
      node (some pv)) pv (some node))
  | none => none

/-- The head of a duplicate-free list does not recur in its tail. -/
theorem head_not_mem_tail {l : List Nat} (hl : l ≠ []) (hnd : l.Nodup) :
    l.head hl ∉ l.tail := by
  conv at hnd => rw [← List.head_cons_tail l hl]
  exact (List.nodup_cons.mp hnd).1

/-- `list_del` of the element at any ring position removes exactly that
element and restores the closed ring. -/
theorem ring_del {h : Heap} {s x : Nat} {u v : List Nat}
    (hr : isRing h s (u ++ x :: v)) :
    ∃ h', list_del_ptr h x = some h' ∧ isRing h' s (u ++ v) := by
  obtain ⟨hnd, hcl⟩ := hr
  have hA : (s :: u) ≠ [] := by simp
  have hB : (v ++ [s]) ≠ [] := by simp
  have hcyc : s :: (u ++ x :: v) ++ [s] = (s :: u) ++ x :: (v ++ [s]) := by simp
  rw [hcyc] at hcl
  set p : Nat := (s :: u).getLast hA with hp
  set q : Nat := (v ++ [s]).head hB with hq
  obtain ⟨hclA, hclxB, hpairA⟩ :=
    (chainLinks_append_iff h (s :: u) (x :: (v ++ [s])) hA (by simp)).mp hcl
  obtain ⟨hnextp, hprevx⟩ :=
    hpairA p x (List.getLast?_eq_getLast _ hA) rfl
  have hclxB' := hclxB
  rw [show x :: (v ++ [s]) = [x] ++ (v ++ [s]) from rfl] at hclxB'
  obtain ⟨-, hclB, hpairx⟩ :=
    (chainLinks_append_iff h [x] (v ++ [s]) (by simp) hB).mp hclxB'
  obtain ⟨hnextx, hprevq⟩ :=
    hpairx x q rfl (List.head?_eq_head hB)
  have hndA : (s :: u).Nodup :=
    ((List.sublist_append_left u (x :: v)).cons₂ s).nodup hnd
  have hnd' := hnd
  simp only [List.nodup_cons, List.mem_append, List.mem_cons, not_or,
    List.nodup_append, List.nodup_cons, List.disjoint_cons_right] at hnd'
  obtain ⟨⟨hsu, hsx, hsv⟩, hu, ⟨hxv, hv⟩, hxu, hdisj⟩ := hnd'
  have hpmem : p ∈ s :: u := List.getLast_mem hA
  have hqmem : q ∈ v ∨ q = s := by
    cases v with
    | nil => right; simp [hq]
    | cons v0 v' => left; simp [hq]
  have hqA : q ∉ (s :: u).tail := by
    simp only [List.tail_cons]
    rcases hqmem with hqv | hqs
    · exact fun hqu => hdisj hqu hqv
    · rw [hqs]; exact hsu
  have hpA : p ∉ (s :: u).dropLast := getLast_not_mem_dropLast hA hndA
  have hpB : p ∉ (v ++ [s]).dropLast := by
    rw [List.dropLast_concat]
    intro hpv
    rcases List.mem_cons.mp hpmem with hps | hpu
    · exact hsv (hps ▸ hpv)
    · exact hdisj hpu hpv
  have hndB : (v ++ [s]).Nodup := by
    rw [List.nodup_append]
    refine ⟨hv, List.nodup_singleton s, ?_⟩
    intro a hav has
    rw [List.mem_singleton] at has
    exact hsv (has ▸ hav)
  have hqB : q ∉ (v ++ [s]).tail := head_not_mem_tail hB hndB
  refine ⟨upNext (upPrev h q (some p)) p (some q), ?_, ?_, ?_⟩
  · simp only [list_del_ptr, hnextx, hprevx]
  · exact ((List.Sublist.append_left (List.sublist_cons_self x v) u).cons₂ s).nodup hnd
  · have hgoal : s :: (u ++ v) ++ [s] = (s :: u) ++ (v ++ [s]) := by simp
    rw [hgoal, chainLinks_append_iff _ (s :: u) (v ++ [s]) hA hB]
    refine ⟨chainLinks_upNext (chainLinks_upPrev hclA hqA) hpA,
      chainLinks_upNext (chainLinks_upPrev hclB hqB) hpB,
      fun a b ha hb => ?_⟩
    rw [List.getLast?_eq_getLast _ hA] at ha
    rw [List.head?_eq_head hB] at hb
    obtain rfl : a = p := by simpa using ha.symm
    obtain rfl : b = q := by simpa using hb.symm
    exact ⟨by simp, by simp⟩

/-- `list_add`'s four pointer writes splice a fresh node `n` between `a`
and its successor `d` in a doubly linked chain. -/
theorem chainLinks_insert {h : Heap} {C D' : List Nat} {a n d : Nat}
    (hcl : chainLinks h (C ++ a :: d :: D'))
    (hnC : n ∉ C) (hnD : n ∉ (d :: D').dropLast) (hnD' : n ∉ D')
    (hna : n ≠ a) (hnd : n ≠ d)
    (haC : a ∉ C) (haD : a ∉ (d :: D').dropLast) (hda : d ≠ a)
    (hdA : d ∉ (C ++ [a]).tail) (hdD : d ∉ D') :
    ∃ h', list_add_ptr h n a = some h' ∧ chainLinks h' (C ++ a :: n :: d :: D') := by
  have hCA : (C ++ [a]) ≠ [] := by simp
  have hsplit : C ++ a :: d :: D' = (C ++ [a]) ++ (d :: D') := by simp
  rw [hsplit] at hcl
  obtain ⟨hclCA, hclD, hpair⟩ :=
    (chainLinks_append_iff h (C ++ [a]) (d :: D') hCA (by simp)).mp hcl
  obtain ⟨hnext_a, hprev_d⟩ := hpair a d (by simp) rfl
  refine ⟨upNext (upPrev (upNext (upPrev h d (some n)) n (some d))
      n (some a)) a (some n), ?_, ?_⟩
  · simp only [list_add_ptr, hnext_a]
  · have hgoal : C ++ a :: n :: d :: D' = (C ++ [a]) ++ (n :: d :: D') := by simp
    rw [hgoal, chainLinks_append_iff _ (C ++ [a]) (n :: d :: D') hCA (by simp)]
    refine ⟨?_, ?_, ?_⟩
    · -- the prefix up to the anchor keeps its links
      refine chainLinks_upNext (chainLinks_upPrev (chainLinks_upNext
        (chainLinks_upPrev hclCA hdA) ?_) ?_) ?_
      · rw [List.dropLast_concat]; exact hnC
      · intro hmem
        rcases List.mem_append.mp (List.mem_of_mem_tail hmem) with hm | hm
        · exact hnC hm
        · exact hna (by simpa using hm)
      · rw [List.dropLast_concat]; exact haC
    · -- the new node is linked to the old successor, whose suffix is intact
      refine ⟨?_, ?_, ?_⟩
      · simp [hna]
      · have hdn : ¬ d = n := fun he => hnd he.symm
        simp [hdn]
      · refine chainLinks_upNext (chainLinks_upPrev (chainLinks_upNext
          (chainLinks_upPrev hclD hdD) ?_) ?_) ?_
        · exact hnD
        · simpa using hnD'
        · exact haD
    · intro p q hp hq
      obtain rfl : p = a := by simpa using hp.symm
      obtain rfl : q = n := by simpa using hq.symm
      constructor
      · simp
      · simp [hna]

/-- `list_add(node, head)` on a live ring links the fresh node as the first
element. -/
theorem ring_add_head {h : Heap} {s n : Nat} {ns : List Nat}
    (hr : isRing h s ns) (hn : n ∉ s :: ns) :
    ∃ h', list_add_ptr h n s = some h' ∧ isRing h' s (n :: ns) := by
  obtain ⟨hnd, hcl⟩ := hr
  simp only [List.mem_cons, not_or] at hn
  obtain ⟨hns, hnns⟩ := hn
  cases ns with
  | nil =>
    obtain ⟨hnexts, hprevs, -⟩ := hcl
    refine ⟨upNext (upPrev (upNext (upPrev h s (some n)) n (some s)) n (some s))
        s (some n), ?_, ?_, ?_⟩
    · simp only [list_add_ptr, hnexts]
    · exact List.nodup_cons.mpr ⟨by simpa using fun h : s = n => hns h.symm, by simp⟩
    · refine ⟨?_, ?_, ?_, ?_, trivial⟩ <;>
        simp [hns, fun hsn : s = n => hns hsn.symm]
  | cons n0 ns' =>
    have hnd' := hnd
    simp only [List.nodup_cons, List.nodup_cons, List.mem_cons, not_or] at hnd'
    obtain ⟨⟨hsn0, hsns'⟩, hn0ns', hndns'⟩ := hnd'
    have hnn0 : n ≠ n0 := fun he => hnns (by simp [he])
    have hcl0 : chainLinks h ([] ++ s :: n0 :: (ns' ++ [s])) := hcl
    have hdrop : (n0 :: (ns' ++ [s])).dropLast = n0 :: ns' := by
      rw [show n0 :: (ns' ++ [s]) = (n0 :: ns') ++ [s] from rfl, List.dropLast_concat]
    obtain ⟨h', hadd, hcl'⟩ := chainLinks_insert hcl0
      (by simp) (by rw [hdrop]; exact hnns)
      (by
        simp only [List.mem_append, List.mem_singleton, not_or]
        exact ⟨fun hm => hnns (by simp [hm]), hns⟩)
      hns hnn0
      (by simp) (by rw [hdrop]; simp [hsn0, hsns'])
      (fun h : n0 = s => hsn0 h.symm)
      (by simp)
      (by
        simp only [List.mem_append, List.mem_singleton, not_or]
        exact ⟨hn0ns', fun h : n0 = s => hsn0 h.symm⟩)
    refine ⟨h', hadd, ?_, ?_⟩
    · have h1 : s ∉ n :: n0 :: ns' := by
        simp only [List.mem_cons, not_or]
        exact ⟨fun h => hns h.symm, hsn0, hsns'⟩
      exact List.nodup_cons.mpr ⟨h1, List.nodup_cons.mpr ⟨hnns,
        List.nodup_cons.mpr ⟨hn0ns', hndns'⟩⟩⟩
    · simpa using hcl'

/-- `list_add(node, anchor)` after any element of a live ring links the
fresh node immediately after that element. -/
theorem ring_add_mid {h : Heap} {s a n : Nat} {U V : List Nat}
    (hr : isRing h s (U ++ a :: V)) (hn : n ∉ s :: (U ++ a :: V)) :
    ∃ h', list_add_ptr h n a = some h' ∧ isRing h' s (U ++ a :: n :: V) := by
  obtain ⟨hnd, hcl⟩ := hr
  have hn' := hn
  simp only [List.mem_cons, List.mem_append, not_or] at hn'
  obtain ⟨hns, hnU, hna, hnV⟩ := hn'
  have hnd' := hnd
  simp only [List.nodup_cons, List.mem_append, List.mem_cons, not_or,
    List.nodup_append, List.nodup_cons, List.disjoint_cons_right] at hnd'
  obtain ⟨⟨hsU, hsa, hsV⟩, hU, ⟨haV, hV⟩, haU, hdisj⟩ := hnd'
  have hgoalN : (s :: (U ++ a :: n :: V)).Nodup := by
    have heq : s :: (U ++ a :: n :: V) = ((s :: U) ++ [a]) ++ n :: V := by simp
    rw [heq, List.nodup_middle, List.nodup_cons]
    constructor
    · intro hm
      simp only [List.mem_append, List.mem_cons, List.not_mem_nil, or_false,
        List.mem_singleton] at hm
      rcases hm with (hm | hm) | hm
      · rcases hm with hm | hm
        · exact hns hm
        · exact hnU hm
      · exact hna hm
      · exact hnV hm
    · have heq2 : ((s :: U) ++ [a]) ++ V = s :: (U ++ a :: V) := by simp
      rw [heq2]; exact hnd
  cases V with
  | nil =>
    have heq : s :: (U ++ a :: ([] : List Nat)) ++ [s] =
        (s :: U) ++ a :: s :: ([] : List Nat) := by simp
    rw [heq] at hcl
    obtain ⟨h', hadd, hcl'⟩ := chainLinks_insert hcl
      (by simp only [List.mem_cons, not_or]; exact ⟨hns, hnU⟩)
      (by simp) (by simp) hna hns
      (by simp only [List.mem_cons, not_or]
          exact ⟨fun he => hsa he.symm, haU⟩)
      (by simp) (fun he => hsa he)
      (by
        intro hm
        have hm' : s ∈ U ++ [a] := hm
        rcases List.mem_append.mp hm' with hm'' | hm''
        · exact hsU hm''
        · exact hsa (by simpa using hm''))
      (by simp)
    refine ⟨h', hadd, hgoalN, ?_⟩
    have heq3 : s :: (U ++ a :: n :: ([] : List Nat)) ++ [s] =
        (s :: U) ++ a :: n :: s :: ([] : List Nat) := by simp
    rw [heq3]
    exact hcl'
  | cons v0 V' =>
    have heq : s :: (U ++ a :: v0 :: V') ++ [s] =
        (s :: U) ++ a :: v0 :: (V' ++ [s]) := by simp
    rw [heq] at hcl
    have hdrop : (v0 :: (V' ++ [s])).dropLast = v0 :: V' := by
      rw [show v0 :: (V' ++ [s]) = (v0 :: V') ++ [s] from rfl, List.dropLast_concat]
    have hv0V' : v0 ∉ V' := (List.nodup_cons.mp hV).1
    have hav0 : ¬ a = v0 := fun he => haV (by simp [he])
    obtain ⟨h', hadd, hcl'⟩ := chainLinks_insert hcl
      (by simp only [List.mem_cons, not_or]; exact ⟨hns, hnU⟩)
      (by rw [hdrop]; exact hnV)
      (by
        simp only [List.mem_append, List.mem_singleton, not_or]
        exact ⟨fun hm => hnV (by simp [hm]), hns⟩)
      hna (by intro he; exact hnV (by simp [he]))
      (by simp only [List.mem_cons, not_or]
          exact ⟨fun he => hsa he.symm, haU⟩)
      (by rw [hdrop]; exact haV)
      (fun he => hav0 he.symm)
      (by
        intro hm
        have hm' : v0 ∈ U ++ [a] := hm
        rcases List.mem_append.mp hm' with hm'' | hm''
        · exact hdisj hm'' (by simp)
        · have hva : v0 = a := by simpa using hm''
          exact hav0 hva.symm)
      (by
        simp only [List.mem_append, List.mem_singleton, not_or]
        exact ⟨hv0V', fun he => hsV (by simp [he])⟩)
    refine ⟨h', hadd, hgoalN, ?_⟩
    have heq3 : s :: (U ++ a :: n :: v0 :: V') ++ [s] =
        (s :: U) ++ a :: n :: v0 :: (V' ++ [s]) := by simp
    rw [heq3]
    exact hcl'

/-- `list_add_tail(node, head)` on a live ring links the fresh node as the
last element. -/
theorem ring_add_tail {h : Heap} {s n : Nat} {ns : List Nat}
    (hr : isRing h s ns) (hn : n ∉ s :: ns) :
    ∃ h', list_add_tail_ptr h n s = some h' ∧ isRing h' s (ns ++ [n]) := by
  rcases List.eq_nil_or_concat ns with rfl | ⟨U, pv, rfl⟩
  · obtain ⟨hnexts, hprevs, -⟩ := hr.2
    obtain ⟨h', hadd, hring⟩ := ring_add_head hr hn
    refine ⟨h', ?_, hring⟩
    rw [← hadd]
    simp only [list_add_tail_ptr, list_add_ptr, hprevs, hnexts]
  · rw [List.concat_eq_append] at hr hn ⊢
    -- the wrap links: pv is the last element, doubly linked to the sentinel
    have hcl := hr.2
    have heq : s :: (U ++ [pv]) ++ [s] = (s :: (U ++ [pv])) ++ [s] := by simp
    rw [heq] at hcl
    obtain ⟨-, -, hpair⟩ :=
      (chainLinks_append_iff h (s :: (U ++ [pv])) [s] (by simp) (by simp)).mp hcl
    obtain ⟨hnextpv, hprevs⟩ := hpair pv s (by
      rw [List.getLast?_eq_getLast _ (by simp)]
      simp) rfl
    have hr' : isRing h s (U ++ pv :: []) := hr
    obtain ⟨h', hadd, hring⟩ := ring_add_mid hr' (by simpa using hn)
    refine ⟨h', ?_, by simpa using hring⟩
    rw [← hadd]
    simp only [list_add_tail_ptr, list_add_ptr, hprevs, hnextpv]

/-- In a doubly linked chain, a node that is followed by something is linked
to the head of its suffix. -/
theorem chainLinks_adjacent {h : Heap} {L R : List Nat} {x : Nat}
    (hcl : chainLinks h (L ++ x :: R)) (hR : R ≠ []) :
    h.next x = some (R.head hR) ∧ h.prev (R.head hR) = some x := by
  have h1 : L ++ x :: R = (L ++ [x]) ++ R := by simp
  rw [h1] at hcl
  obtain ⟨-, -, hpair⟩ := (chainLinks_append_iff h (L ++ [x]) R (by simp) hR).mp hcl
  exact hpair x (R.head hR) (by simp) (List.head?_eq_head hR)

/-- The do/while loop of `q_reverse` (queue.c:307-313), with fuel:
`pos->next = pos->prev; pos->prev = next; pos = next; next = next->next`,
looping while `pos != head`.  (The C code reads `next->next` just before the
exit test; on the final iteration that read touches a live node and its value
is discarded, so the transcription performs it only when the loop
continues.) -/
def revLoop (head : Nat) : Nat → Heap → Nat → Option Nat → Option Heap
  | 0, _, _, _ => none
  | fuel + 1, h, pos, nxt =>
    let h' := upPrev (upNext h pos (h.prev pos)) pos nxt
    match nxt with
    | none => none
    | some p' =>
      if p' = head then some h'
      else revLoop head fuel h' p' (h'.next p')

/-- `q_reverse`'s pointer phase: `pos = head, next = head->next`, then the
do/while loop. -/
def q_reverse_ptr (h : Heap) (head : Nat) (fuel : Nat) : Option Heap :=
  revLoop head fuel h head (h.next head)

/-- Exchange the `next` and `prev` fields of every node in `m`. -/
def swapOn (h : Heap) (m : List Nat) : Heap :=
  ⟨fun z => if z ∈ m then h.prev z else h.next z,
   fun z => if z ∈ m then h.next z else h.prev z⟩

/-- Exchange the two fields of every node. -/
def swapHeap (h : Heap) : Heap := ⟨h.prev, h.next⟩

/-- One reverse-loop body applied to a partially swapped heap swaps one more
node. -/
theorem swapOn_step {h : Heap} {done : List Nat} {x : Nat} (hx : x ∉ done) :
    upPrev (upNext (swapOn h done) x ((swapOn h done).prev x)) x (h.next x) =
      swapOn h (done ++ [x]) := by
  refine Heap.ext' (fun z => ?_) (fun z => ?_) <;>
    by_cases hz : z = x <;>
    simp [swapOn, upNext, upPrev, hz, hx, List.mem_append]

theorem swapOn_next_of_not_mem {h : Heap} {m : List Nat} {z : Nat} (hz : z ∉ m) :
    (swapOn h m).next z = h.next z := by simp [swapOn, hz]

theorem swapOn_prev_of_not_mem {h : Heap} {m : List Nat} {z : Nat} (hz : z ∉ m) :
    (swapOn h m).prev z = h.prev z := by simp [swapOn, hz]

/-- Reversing a doubly linked chain in the field-swapped heap. -/
theorem chainLinks_reverse {h : Heap} : ∀ {l : List Nat},
    chainLinks h l → chainLinks (swapHeap h) l.reverse := by
  intro l
  induction l with
  | nil => intro _; trivial
  | cons x l ih =>
    intro hl
    cases l with
    | nil => trivial
    | cons y rest =>
      obtain ⟨h1, h2, h3⟩ := hl
      have hrev : (x :: y :: rest).reverse = (y :: rest).reverse ++ [x] := by simp
      rw [hrev, chainLinks_append_iff _ _ [x] (by simp) (by simp)]
      refine ⟨ih h3, trivial, fun a b ha hb => ?_⟩
      rw [List.getLast?_reverse] at ha
      obtain rfl : a = y := by simpa using ha.symm
      obtain rfl : b = x := by simpa using hb.symm
      exact ⟨h2, h1⟩

/-- The reverse loop, run from any position of the ring over the unprocessed
remainder, swaps the fields of every remaining node and stops back at the
sentinel. -/
theorem revLoop_go {h : Heap} {s : Nat} {ns : List Nat} (hr : isRing h s ns) :
    ∀ (rest done : List Nat) (x : Nat), s :: ns = done ++ x :: rest →
      revLoop s (rest.length + 1) (swapOn h done) x (h.next x) =
        some (swapOn h (s :: ns)) := by
  obtain ⟨hnd, hcl⟩ := hr
  intro rest
  induction rest with
  | nil =>
    intro done x hsplit
    have hxdone : x ∉ done := by
      have hnd2 := hsplit ▸ hnd
      rw [List.nodup_middle] at hnd2
      simpa using (List.nodup_cons.mp hnd2).1
    have hadj : h.next x = some s := by
      have hcl2 := hcl
      have hcyc : s :: ns ++ [s] = done ++ x :: [s] := by rw [hsplit]; simp
      rw [hcyc] at hcl2
      exact (chainLinks_adjacent hcl2 (by simp)).1
    have hstep := @swapOn_step h done x hxdone
    rw [hadj] at hstep
    simp only [List.length_nil, revLoop, hadj, if_true, if_pos rfl]
    rw [hstep, ← hsplit]
  | cons y rest' ih =>
    intro done x hsplit
    have hsplit2 : s :: ns = (done ++ [x]) ++ y :: rest' := by rw [hsplit]; simp
    have hnd2 := hsplit ▸ hnd
    have hnd3 := hsplit2 ▸ hnd
    have hxdone : x ∉ done := by
      rw [List.nodup_middle] at hnd2
      exact fun hm => (List.nodup_cons.mp hnd2).1 (List.mem_append_left _ hm)
    have hy_not : y ∉ (done ++ [x]) ++ rest' := by
      rw [List.nodup_middle] at hnd3
      exact (List.nodup_cons.mp hnd3).1
    have hs_mem : s ∈ done ++ [x] := by
      cases done with
      | nil =>
        have : s = x := by simpa using congrArg List.head? hsplit
        simp [this]
      | cons d done' =>
        have : s = d := by simpa using congrArg List.head? hsplit
        simp [this]
    have hys : ¬ y = s :=
      fun he => hy_not (List.mem_append_left _ (he ▸ hs_mem))
    have hadj : h.next x = some y := by
      have hcl2 := hcl
      have hcyc : s :: ns ++ [s] = done ++ x :: ((y :: rest') ++ [s]) := by
        rw [hsplit]; simp
      rw [hcyc] at hcl2
      exact (chainLinks_adjacent hcl2 (by simp)).1
    have hyx : y ∉ done ++ [x] := fun hm => hy_not (List.mem_append_left _ hm)
    have hstep := @swapOn_step h done x hxdone
    rw [hadj] at hstep
    simp only [List.length_cons, revLoop, hadj, if_neg hys]
    rw [hstep, swapOn_next_of_not_mem hyx]
    exact ih (done ++ [x]) y hsplit2

/-- `q_reverse`'s loop terminates on a live ring having swapped every node's
fields, and the result is the closed ring of the reversed element list. -/
theorem revLoop_ring {h : Heap} {s : Nat} {ns : List Nat} (hr : isRing h s ns) :
    q_reverse_ptr h s (ns.length + 1) = some (swapOn h (s :: ns)) ∧
      isRing (swapOn h (s :: ns)) s ns.reverse := by
  constructor
  · have h0 : swapOn h [] = h := by
      refine Heap.ext' (fun z => ?_) (fun z => ?_) <;> simp [swapOn]
    have hg := revLoop_go hr ns [] s rfl
    rw [h0] at hg
    simpa [q_reverse_ptr] using hg
  · obtain ⟨hnd, hcl⟩ := hr
    obtain ⟨hsns, hndns⟩ := List.nodup_cons.mp hnd
    constructor
    · exact List.nodup_cons.mpr ⟨by simpa using hsns, by simpa using hndns⟩
    · have hrev := chainLinks_reverse hcl
      have hshape : (s :: ns ++ [s]).reverse = s :: ns.reverse ++ [s] := by simp
      rw [hshape] at hrev
      refine chainLinks_congr (fun a ha => ?_) hrev
      have hmem : a ∈ s :: ns := by
        simp only [List.mem_cons, List.mem_append, List.mem_reverse,
          List.mem_singleton] at ha ⊢
        tauto
      constructor
      · show (if a ∈ s :: ns then h.prev a else h.next a) = h.prev a
        rw [if_pos hmem]
      · show (if a ∈ s :: ns then h.next a else h.prev a) = h.next a
        rw [if_pos hmem]

/-- The `list_for_each` loop of `q_swap` (queue.c:283-289), with fuel.
Each iteration stops when `pos` is back at the sentinel, breaks when
`pos->next` is the sentinel (odd leftover), and otherwise runs
`list_del(pos); list_add(pos, pos->next)` and advances to `pos->next` read
from the updated heap. -/
def swapLoop (head : Nat) : Nat → Heap → Nat → Option Heap
  | 0, _, _ => none
  | fuel + 1, h, pos =>
    if pos = head then some h
    else
      match h.next pos with
      | none => none
      | some nx =>
        if nx = head then some h
        else
          match list_del_ptr h pos with
          | none => none
          | some h1 =>
            match list_add_ptr h1 pos nx with
            | none => none
            | some h2 =>
              match h2.next pos with
              | none => none
              | some pos' => swapLoop head fuel h2 pos'

theorem swapLoop_mono {head : Nat} : ∀ (f1 f2 : Nat) {h : Heap} {pos : Nat}
    {r : Heap}, f1 ≤ f2 → swapLoop head f1 h pos = some r →
    swapLoop head f2 h pos = some r := by
  intro f1
  induction f1 with
  | zero => intro f2 h pos r _ hrun; exact absurd hrun (by simp [swapLoop])
  | succ f1' ih =>
    intro f2 h pos r hle hrun
    cases f2 with
    | zero => omega
    | succ f2' =>
      rw [swapLoop] at hrun ⊢
      by_cases hph : pos = head
      · simp only [if_pos hph] at hrun ⊢; exact hrun
      · simp only [if_neg hph] at hrun ⊢
        cases hnx : h.next pos with
        | none => simp [hnx] at hrun
        | some nx =>
          simp only [hnx] at hrun ⊢
          by_cases hnxh : nx = head
          · simp only [if_pos hnxh] at hrun ⊢; exact hrun
          · simp only [if_neg hnxh] at hrun ⊢
            cases hdel : list_del_ptr h pos with
            | none => simp [hdel] at hrun
            | some h1 =>
              simp only [hdel] at hrun ⊢
              cases hadd : list_add_ptr h1 pos nx with
              | none => simp [hadd] at hrun
              | some h2 =>
                simp only [hadd] at hrun ⊢
                cases hnx2 : h2.next pos with
                | none => simp [hnx2] at hrun
                | some pos2 =>
                  simp only [hnx2] at hrun ⊢
                  exact ih _ (by omega) hrun

/-- Running the `q_swap` loop over the unprocessed remainder of the ring
swaps adjacent pairs left to right. -/
theorem swapLoop_go {s : Nat} : ∀ (rest done : List Nat) (h : Heap),
    isRing h s (done ++ rest) →
    ∃ h', swapLoop s (rest.length + 1) h ((rest ++ [s]).head (by simp)) = some h'
      ∧ isRing h' s (done ++ swapPairs rest)
  | [], done, h, hr => ⟨h, by simp [swapLoop], by simpa [swapPairs] using hr⟩
  | [x], done, h, hr => by
    have hxs : ¬ x = s := by
      intro he
      have := (List.nodup_cons.mp hr.1).1
      exact this (he ▸ (by simp : x ∈ done ++ [x]))
    have hadj : h.next x = some s := by
      have hcl := hr.2
      have hcyc : s :: (done ++ [x]) ++ [s] = (s :: done) ++ x :: [s] := by simp
      rw [hcyc] at hcl
      exact (chainLinks_adjacent hcl (by simp)).1
    refine ⟨h, ?_, by simpa [swapPairs] using hr⟩
    rw [show (([x] ++ [s]).head (by simp)) = x by simp]
    rw [swapLoop, if_neg hxs, hadj]
    simp
  | x :: y :: rest', done, h, hr => by
    have hnd := hr.1
    have hxmem : x ∈ done ++ x :: y :: rest' := by simp
    have hymem : y ∈ done ++ x :: y :: rest' := by simp
    have hsnotin := (List.nodup_cons.mp hnd).1
    have hxs : ¬ x = s := fun he => hsnotin (he ▸ hxmem)
    have hys : ¬ y = s := fun he => hsnotin (he ▸ hymem)
    have hadj : h.next x = some y := by
      have hcl := hr.2
      have hcyc : s :: (done ++ x :: y :: rest') ++ [s] =
          (s :: done) ++ x :: ((y :: rest') ++ [s]) := by simp
      rw [hcyc] at hcl
      exact (chainLinks_adjacent hcl (by simp)).1
    -- the body: delete x, re-insert it after y
    obtain ⟨h1, hdel, hr1⟩ := ring_del (u := done) (v := y :: rest') hr
    have hxfresh : x ∉ s :: (done ++ y :: rest') := by
      have heq : s :: (done ++ x :: y :: rest') = (s :: done) ++ x :: (y :: rest') := by
        simp
      have hnd2 := heq ▸ hnd
      rw [List.nodup_middle] at hnd2
      exact fun hm => (List.nodup_cons.mp hnd2).1 hm
    obtain ⟨h2, hadd, hr2⟩ := ring_add_mid (U := done) (V := rest') hr1 hxfresh
    have hadj2 : h2.next x = some ((rest' ++ [s]).head (by simp)) := by
      have hcl2 := hr2.2
      have hcyc : s :: (done ++ y :: x :: rest') ++ [s] =
          (s :: done ++ [y]) ++ x :: (rest' ++ [s]) := by simp
      rw [hcyc] at hcl2
      exact (chainLinks_adjacent hcl2 (by simp)).1
    have hr2' : isRing h2 s ((done ++ [y, x]) ++ rest') := by
      have : done ++ y :: x :: rest' = (done ++ [y, x]) ++ rest' := by simp
      rw [← this]
      exact hr2
    obtain ⟨h', hrun, hring⟩ := swapLoop_go rest' (done ++ [y, x]) h2 hr2'
    refine ⟨h', ?_, ?_⟩
    · rw [show (((x :: y :: rest') ++ [s]).head (by simp)) = x by simp]
      rw [show (x :: y :: rest').length + 1 = (rest'.length + 1) + 2 by simp]
      simp only [swapLoop, if_neg hxs, hadj, if_neg hys, hdel, hadd, hadj2]
      exact swapLoop_mono _ (rest'.length + 1 + 1) (by omega) hrun
    · have : done ++ swapPairs (x :: y :: rest') = (done ++ [y, x]) ++ swapPairs rest' := by
        simp [swapPairs]
      rw [this]
      exact hring

/-- A NUL-terminated singly linked chain: each node's `next` is the following
node, the last node's `next` is NULL.  This is the detached intermediate
representation `__q_sort` works on; `prev` fields are unconstrained. -/
def slChain (h : Heap) : List Nat → Prop
  | [] => True
  | [x] => h.next x = none
  | x :: y :: rest => h.next x = some y ∧ slChain h (y :: rest)

theorem slChain_upPrev {h : Heap} {z : Nat} {v : Option Nat} :
    ∀ {l : List Nat}, slChain h l → slChain (upPrev h z v) l := by
  intro l
  induction l with
  | nil => intro _; trivial
  | cons x l ih =>
    intro hl
    cases l with
    | nil => exact hl
    | cons y rest => exact ⟨hl.1, ih hl.2⟩

/-- The reattachment loop of `q_sort` (queue.c:401-405), with fuel:
`for (prev = head, pos = head->next; pos; prev = pos, pos = pos->next)
pos->prev = prev;` followed by `prev->next = head; head->prev = prev`. -/
def rebuildLoop (head : Nat) : Nat → Heap → Nat → Option Nat → Option Heap
  | 0, _, _, _ => none
  | _ + 1, h, prv, none => some (upPrev (upNext h prv (some head)) head (some prv))
  | fuel + 1, h, prv, some p =>
    rebuildLoop head fuel (upPrev h p (some prv)) p ((upPrev h p (some prv)).next p)

/-- Walking the sorted chain and filling in every `prev` pointer, then closing
the cycle, restores the ring invariant over the chain's node order. -/
theorem rebuildLoop_go {head : Nat} : ∀ (rest done : List Nat) (h : Heap) (prv : Nat),
    (head :: done ++ rest).Nodup →
    chainLinks h (head :: done) →
    (head :: done).getLast? = some prv →
    slChain h (prv :: rest) →
    ∃ h', rebuildLoop head (rest.length + 1) h prv (h.next prv) = some h' ∧
      isRing h' head (done ++ rest)
  | [], done, h, prv, hnd, hclpre, hlast, hsl => by
    have hnone : h.next prv = none := hsl
    have hprvmem : prv ∈ head :: done := by
      have := List.getLast?_eq_getLast (head :: done) (by simp)
      rw [this] at hlast
      have : prv = (head :: done).getLast (by simp) := by simpa using hlast.symm
      rw [this]
      exact List.getLast_mem _
    have hndhd : (head :: done).Nodup := by simpa using hnd
    have hprvdl : prv ∉ (head :: done).dropLast := by
      have := List.getLast?_eq_getLast (head :: done) (by simp)
      rw [this] at hlast
      have heq : prv = (head :: done).getLast (by simp) := by simpa using hlast.symm
      rw [heq]
      exact getLast_not_mem_dropLast (by simp) hndhd
    have hheadtl : head ∉ (head :: done).tail := by
      simpa using (List.nodup_cons.mp hndhd).1
    refine ⟨upPrev (upNext h prv (some head)) head (some prv), ?_, ?_, ?_⟩
    · rw [hnone, rebuildLoop]
    · simpa using hnd
    · have hclpre' : chainLinks (upPrev (upNext h prv (some head)) head (some prv))
          (head :: done) :=
        chainLinks_upPrev (chainLinks_upNext hclpre hprvdl) hheadtl
      have hcyc : head :: (done ++ []) ++ [head] = (head :: done) ++ [head] := by simp
      rw [hcyc, chainLinks_append_iff _ (head :: done) [head] (by simp) (by simp)]
      refine ⟨hclpre', trivial, fun a b ha hb => ?_⟩
      rw [hlast] at ha
      obtain rfl : a = prv := by simpa using ha.symm
      obtain rfl : b = head := by simpa using hb.symm
      constructor
      · simp
      · simp
  | p :: rest', done, h, prv, hnd, hclpre, hlast, hsl => by
    obtain ⟨hnextprv, hslrest⟩ := hsl
    have hpdone : p ∉ head :: done := by
      have heq : head :: done ++ p :: rest' = (head :: done) ++ p :: rest' := by simp
      have hnd2 := heq ▸ hnd
      rw [List.nodup_middle] at hnd2
      intro hm
      exact (List.nodup_cons.mp hnd2).1 (List.mem_append_left _ hm)
    have hcl1 : chainLinks (upPrev h p (some prv)) (head :: done ++ [p]) := by
      have hsplit : head :: done ++ [p] = (head :: done) ++ [p] := by simp
      rw [hsplit, chainLinks_append_iff _ (head :: done) [p] (by simp) (by simp)]
      refine ⟨chainLinks_upPrev hclpre (fun hm => hpdone (List.mem_of_mem_tail hm)),
        trivial, fun a b ha hb => ?_⟩
      rw [hlast] at ha
      obtain rfl : a = prv := by simpa using ha.symm
      obtain rfl : b = p := by simpa using hb.symm
      exact ⟨hnextprv, by simp⟩
    have hnd' : (head :: (done ++ [p]) ++ rest').Nodup := by
      have : head :: (done ++ [p]) ++ rest' = head :: done ++ p :: rest' := by simp
      rw [this]
      exact hnd
    have hlast' : (head :: (done ++ [p])).getLast? = some p := by
      have : head :: (done ++ [p]) = (head :: done) ++ [p] := by simp
      rw [this, List.getLast?_append]
      rfl
    have hsl' : slChain (upPrev h p (some prv)) (p :: rest') :=
      slChain_upPrev hslrest
    obtain ⟨h', hrun, hring⟩ := rebuildLoop_go rest' (done ++ [p])
      (upPrev h p (some prv)) p hnd' (by simpa using hcl1) hlast' hsl'
    refine ⟨h', ?_, ?_⟩
    · rw [show (p :: rest').length + 1 = rest'.length + 1 + 1 by simp]
      rw [hnextprv, rebuildLoop]
      exact hrun
    · have : done ++ p :: rest' = (done ++ [p]) ++ rest' := by simp
      rw [this]
      exact hring

theorem chainLinks_followN {h : Heap} : ∀ {l : List Nat} {x : Nat},
    chainLinks h l → l.head? = some x →
    followN h (some x) (l.length - 1) = l.getLast? := by
  intro l
  induction l with
  | nil => intro x _ hx; simp at hx
  | cons a l ih =>
    intro x hl hx
    rw [List.head?_cons, Option.some.injEq] at hx
    subst hx
    cases l with
    | nil => rfl
    | cons y rest =>
      obtain ⟨h1, h2, h3⟩ := hl
      have : (a :: y :: rest).length - 1 = (y :: rest).length - 1 + 1 := by
        simp
      rw [this, followN, h1, ih h3 rfl]
      simp

/-- The heap created by `q_new` + `INIT_LIST_HEAD` (queue.c:19-29): one
sentinel node, self-linked; nothing else is allocated. -/
def q_new_heap (s : Nat) : Heap :=
  ⟨fun z => if z = s then some s else none,
   fun z => if z = s then some s else none⟩

theorem q_new_heap_isRing (s : Nat) : isRing (q_new_heap s) s [] := by
  constructor
  · simp
  · refine ⟨?_, ?_, trivial⟩ <;> simp [q_new_heap]

/-- Consequences of the closed-ring invariant: walking `next` from the
sentinel `size + 1` times returns to the sentinel, no live node holds a NULL
link, and the double links are mutually inverse at every node. -/
theorem isRing_closed {h : Heap} {s : Nat} {ns : List Nat} (hr : isRing h s ns) :
    followN h (some s) (ns.length + 1) = some s ∧
    (∀ x ∈ s :: ns, h.next x ≠ none ∧ h.prev x ≠ none) ∧
    (∀ x ∈ s :: ns, (∃ y, h.next x = some y ∧ h.prev y = some x) ∧
      (∃ z, h.prev x = some z ∧ h.next z = some x)) := by
  obtain ⟨hnd, hcl⟩ := hr
  have hdl : (s :: ns ++ [s]).dropLast = s :: ns := by
    rw [show s :: ns ++ [s] = (s :: ns) ++ [s] from rfl, List.dropLast_concat]
  have hnextfact : ∀ x ∈ s :: ns, ∃ y, h.next x = some y ∧ h.prev y = some x := by
    intro x hx
    obtain ⟨y, h1, h2, -⟩ := chainLinks_next_of_mem_dropLast hcl (hdl ▸ hx)
    exact ⟨y, h1, h2⟩
  have hprevfact : ∀ x ∈ s :: ns, ∃ z, h.prev x = some z ∧ h.next z = some x := by
    intro x hx
    have hxt : x ∈ (s :: ns ++ [s]).tail := by
      show x ∈ ns ++ [s]
      rcases List.mem_cons.mp hx with rfl | hx'
      · exact List.mem_append_right _ (by simp)
      · exact List.mem_append_left _ hx'
    exact chainLinks_prev_of_mem_tail hcl hxt
  refine ⟨?_, ?_, ?_⟩
  · have hf := chainLinks_followN hcl (x := s) rfl
    have hlen : (s :: ns ++ [s]).length - 1 = ns.length + 1 := by simp
    have hlast : (s :: ns ++ [s]).getLast? = some s :=
      List.getLast?_concat (s :: ns)
    rw [hlen, hlast] at hf
    exact hf
  · intro x hx
    obtain ⟨y, h1, -⟩ := hnextfact x hx
    obtain ⟨z, h2, -⟩ := hprevfact x hx
    exact ⟨by simp [h1], by simp [h2]⟩
  · intro x hx
    exact ⟨hnextfact x hx, hprevfact x hx⟩

/-- `q_sort`'s final phase: whatever sorted chain the merge phase produced,
walking it to rebuild `prev` links and re-closing the cycle restores the ring
invariant. -/
theorem rebuild_ring {h : Heap} {head c0 : Nat} {cs' : List Nat}
    (hnd : (head :: c0 :: cs').Nodup)
    (hhd : h.next head = some c0)
    (hsl : slChain h (c0 :: cs')) :
    ∃ h', rebuildLoop head ((c0 :: cs').length + 1) h head (h.next head) = some h'
      ∧ isRing h' head (c0 :: cs') := by
  have := @rebuildLoop_go head (c0 :: cs') [] h head
    (by simpa using hnd) trivial rfl (by exact ⟨hhd, hsl⟩)
  simpa using this

/-! ### Small facts feeding the claim theorems -/

instance : DecidableRel ele_le := fun x y =>
  inferInstanceAs (Decidable (strcmp x.value y.value ≤ 0))

theorem sizeLoop_eq_length : ∀ l : List element_t, sizeLoop l = l.length
  | [] => rfl
  | _ :: rest => by rw [sizeLoop, sizeLoop_eq_length rest, List.length_cons]

/-- Every driver step keeps the queue pointer live. -/
theorem qstep_some : ∀ (l : List element_t) (op : QOp),
    ∃ l', qstep (some l) op = some l' := by
  intro l op
  cases op with
  | insH v node => exact ⟨⟨cstr v, node⟩ :: l, rfl⟩
  | insT v node => exact ⟨l ++ [({ value := cstr v, node := node } : element_t)], rfl⟩
  | remH =>
    cases l with
    | nil => exact ⟨[], rfl⟩
    | cons x rest => exact ⟨rest, rfl⟩
  | remT =>
    cases l with
    | nil => exact ⟨[], rfl⟩
    | cons x rest => exact ⟨(x :: rest).dropLast, rfl⟩

theorem qexec_some (ops : List QOp) : ∃ l, qexec ops = some l := by
  suffices h : ∀ (ops : List QOp) (l : List element_t),
      ∃ l', List.foldl qstep (some l) ops = some l' from h ops []
  intro ops
  induction ops with
  | nil => exact fun l => ⟨l, rfl⟩
  | cons op ops ih =>
    intro l
    obtain ⟨l1, h1⟩ := qstep_some l op
    rw [List.foldl_cons, h1]
    exact ih l1

theorem swapPairs_length {α : Type} : ∀ l : List α, (swapPairs l).length = l.length
  | [] => rfl
  | [_] => rfl
  | _ :: _ :: rest => by
    rw [swapPairs, List.length_cons, List.length_cons, List.length_cons,
      List.length_cons, swapPairs_length rest]

theorem swapPairs_involutive {α : Type} : ∀ l : List α, swapPairs (swapPairs l) = l
  | [] => rfl
  | [_] => rfl
  | x :: y :: rest => by
    rw [swapPairs, swapPairs, swapPairs_involutive rest]

theorem swapPairs_getLast?_odd {α : Type} : ∀ l : List α, l.length % 2 = 1 →
    (swapPairs l).getLast? = l.getLast?
  | [], h => by simp at h
  | [x], _ => rfl
  | [x, y], h => by simp at h
  | x :: y :: z :: rest, h => by
    have hrest : (z :: rest).length % 2 = 1 := by
      simp only [List.length_cons] at h ⊢
      omega
    have ih := swapPairs_getLast?_odd (z :: rest) hrest
    have hlen := swapPairs_length (z :: rest)
    cases hs : swapPairs (z :: rest) with
    | nil =>
      rw [hs] at hlen
      simp at hlen
    | cons a as =>
      rw [hs] at ih
      have e1 : (x :: y :: z :: rest).getLast? = (z :: rest).getLast? := by
        rw [List.getLast?_cons_cons, List.getLast?_cons_cons]
      have e2 : (y :: x :: a :: as).getLast? = (a :: as).getLast? := by
        rw [List.getLast?_cons_cons, List.getLast?_cons_cons]
      rw [swapPairs, hs, e2, e1]
      exact ih

/-! ### Claim theorems -/

/-- C1: On a list sorted ascending by byte-wise payload comparison,
`q_delete_dup` removes every member of each maximal run of two or more
adjacent `strcmp`-equal elements (keeping no copy) and leaves every element
whose payload differs from both immediate neighbours in place, in its original
relative order — that is, it computes `dedupSpec`; it returns `false` iff the
list is NULL, and `true` with no effect on a non-null empty list. -/
theorem claim_C1 :
    (∀ q : Queue, (q_delete_dup q).1 = false ↔ q = none) ∧
    q_delete_dup none = (false, none) ∧
    q_delete_dup (some []) = (true, some []) ∧
    ∀ l : List element_t, l.Pairwise ele_le →
      q_delete_dup (some l) = (true, some (dedupSpec l)) := by
  refine ⟨?_, rfl, rfl, ?_⟩
  · intro q
    cases q <;> simp [q_delete_dup]
  · intro l _
    simp [q_delete_dup, dedupLoop_eq_dedupSpec]

/-- Witness for C1: a sorted three-element list whose first two payloads are
equal. -/
theorem claim_C1_witness :
    q_delete_dup (some [⟨[1], 0⟩, ⟨[1], 1⟩, ⟨[2], 2⟩]) =
      (true, some (dedupSpec [⟨[1], 0⟩, ⟨[1], 1⟩, ⟨[2], 2⟩])) :=
  claim_C1.2.2.2 [⟨[1], 0⟩, ⟨[1], 1⟩, ⟨[2], 2⟩] (by decide)

/-- C2: on a list with at least two elements `q_sort` produces a permutation
of the same elements, ascending under byte-wise `strcmp`, and stable: every
`strcmp`-equivalence class of payloads keeps its input order; an absent,
empty or single-element list is unchanged. -/
theorem claim_C2 :
    q_sort none = none ∧
    q_sort (some []) = some [] ∧
    (∀ x : element_t, q_sort (some [x]) = some [x]) ∧
    ∀ l : List element_t, 2 ≤ l.length →
      ∃ l', q_sort (some l) = some l' ∧ l'.Perm l ∧ l'.Pairwise ele_le ∧
        ∀ p : Value, l'.filter (fun e => strcmp e.value p == 0) =
          l.filter (fun e => strcmp e.value p == 0) := by
  refine ⟨rfl, rfl, fun x => rfl, ?_⟩
  intro l hl
  refine ⟨__q_sort l, ?_, sort_perm l, sort_sorted l, fun p => sort_stable l p⟩
  rw [q_sort, if_neg (by omega)]

/-- Witness for C2 at the two-element unsorted list `[[2], [1]]`. -/
theorem claim_C2_witness :
    ∃ l', q_sort (some [(⟨[2], 0⟩ : element_t), ⟨[1], 1⟩]) = some l' ∧
      l'.Perm [(⟨[2], 0⟩ : element_t), ⟨[1], 1⟩] ∧ l'.Pairwise ele_le ∧
      ∀ p : Value, l'.filter (fun e => strcmp e.value p == 0) =
        ([(⟨[2], 0⟩ : element_t), ⟨[1], 1⟩]).filter
          (fun e => strcmp e.value p == 0) :=
  claim_C2.2.2.2 [⟨[2], 0⟩, ⟨[1], 1⟩] (by decide)

/-- C3: `q_delete_mid` on a non-empty list of size n unlinks and destroys
exactly the element at 0-based index ⌊n/2⌋, reduces the size to n − 1 and
returns `true`; it returns `false` iff the list is NULL or empty. -/
theorem claim_C3 :
    (∀ q : Queue, (q_delete_mid q).1 = false ↔ q = none ∨ q = some []) ∧
    q_delete_mid none = (false, none) ∧
    q_delete_mid (some []) = (false, some []) ∧
    ∀ l : List element_t, l ≠ [] →
      q_delete_mid (some l) =
        (true, some (l.take (l.length / 2) ++ l.drop (l.length / 2 + 1))) ∧
      (q_delete_mid (some l)).2 = some (l.eraseIdx (l.length / 2)) ∧
      (l.eraseIdx (l.length / 2)).length = l.length - 1 := by
  refine ⟨?_, rfl, rfl, ?_⟩
  · intro q
    cases q with
    | none => simp [q_delete_mid]
    | some l => cases l <;> simp [q_delete_mid]
  · intro l hne
    cases l with
    | nil => exact absurd rfl hne
    | cons x rest =>
      have h1 : q_delete_mid (some (x :: rest)) =
          (true, some ((x :: rest).eraseIdx ((x :: rest).length / 2))) := by
        rw [q_delete_mid, midWalk_eq]
      refine ⟨?_, by rw [h1], ?_⟩
      · rw [h1, List.eraseIdx_eq_take_drop_succ]
      · exact List.length_eraseIdx_of_lt
          (by simp only [List.length_cons]; omega)

/-- Witness for C3 at a singleton list (n = 1, deletes index 0). -/
theorem claim_C3_witness :
    q_delete_mid (some [(⟨[7], 0⟩ : element_t)]) =
      (true, some (([(⟨[7], 0⟩ : element_t)]).take (([(⟨[7], 0⟩ : element_t)]).length / 2) ++
        ([(⟨[7], 0⟩ : element_t)]).drop (([(⟨[7], 0⟩ : element_t)]).length / 2 + 1))) ∧
    (q_delete_mid (some [(⟨[7], 0⟩ : element_t)])).2 =
      some (([(⟨[7], 0⟩ : element_t)]).eraseIdx (([(⟨[7], 0⟩ : element_t)]).length / 2)) ∧
    (([(⟨[7], 0⟩ : element_t)]).eraseIdx (([(⟨[7], 0⟩ : element_t)]).length / 2)).length =
      ([(⟨[7], 0⟩ : element_t)]).length - 1 :=
  claim_C3.2.2.2 [⟨[7], 0⟩] (by decide)

/-- C5: `q_reverse` is an involution; a single application reverses the
element order, and an absent, empty or single-element list is unchanged. -/
theorem claim_C5 :
    (∀ q : Queue, q_reverse (q_reverse q) = q) ∧
    (∀ l : List element_t, q_reverse (some l) = some l.reverse) ∧
    q_reverse none = none ∧
    q_reverse (some []) = some [] ∧
    (∀ x : element_t, q_reverse (some [x]) = some [x]) := by
  have hsingle : ∀ l : List element_t, q_reverse (some l) = some l.reverse := by
    intro l
    cases l with
    | nil => rfl
    | cons x l1 =>
      cases l1 with
      | nil => rfl
      | cons y rest =>
        rw [q_reverse, if_neg (by simp only [List.length_cons]; omega)]
  refine ⟨?_, hsingle, rfl, rfl, fun x => rfl⟩
  intro q
  cases q with
  | none => rfl
  | some l => rw [hsingle, hsingle, List.reverse_reverse]

/-- C6: `q_swap` exchanges each left-to-right pair of adjacent elements,
leaving a trailing unpaired element of an odd-length list in place
([A,B,C,D] ↦ [B,A,D,C], [A,B,C] ↦ [B,A,C]); on every even-length list it is
an involution; an absent, empty or single-element list is unchanged. -/
theorem claim_C6 :
    (∀ a b c d : element_t, q_swap (some [a, b, c, d]) = some [b, a, d, c]) ∧
    (∀ a b c : element_t, q_swap (some [a, b, c]) = some [b, a, c]) ∧
    (∀ l : List element_t, l.length % 2 = 0 → q_swap (q_swap (some l)) = some l) ∧
    (∀ l : List element_t, l.length % 2 = 1 →
      ∃ l', q_swap (some l) = some l' ∧ l'.getLast? = l.getLast? ∧
        l'.length = l.length) ∧
    q_swap none = none ∧
    q_swap (some []) = some [] ∧
    (∀ x : element_t, q_swap (some [x]) = some [x]) := by
  have hq : ∀ (x y : element_t) (rest : List element_t),
      q_swap (some (x :: y :: rest)) = some (swapPairs (x :: y :: rest)) := by
    intro x y rest
    rw [q_swap, if_neg (by simp only [List.length_cons]; omega)]
  refine ⟨?_, ?_, ?_, ?_, rfl, rfl, fun x => rfl⟩
  · intro a b c d; rw [hq]; rfl
  · intro a b c; rw [hq]; rfl
  · intro l hl
    cases l with
    | nil => rfl
    | cons x l1 =>
      cases l1 with
      | nil => simp at hl
      | cons y rest =>
        rw [hq x y rest,
          show swapPairs (x :: y :: rest) = y :: x :: swapPairs rest from rfl,
          hq y x (swapPairs rest),
          show swapPairs (y :: x :: swapPairs rest) =
            x :: y :: swapPairs (swapPairs rest) from rfl,
          swapPairs_involutive rest]
  · intro l hl
    cases l with
    | nil => simp at hl
    | cons x l1 =>
      cases l1 with
      | nil => exact ⟨[x], rfl, rfl, rfl⟩
      | cons y rest =>
        exact ⟨swapPairs (x :: y :: rest), hq x y rest,
          swapPairs_getLast?_odd _ hl, swapPairs_length _⟩

/-- Witness for C6: the even-length involution at a 2-element list and the
odd-length fixed tail at a 3-element list. -/
theorem claim_C6_witness :
    (q_swap (q_swap (some [(⟨[1], 0⟩ : element_t), ⟨[2], 1⟩])) =
      some [(⟨[1], 0⟩ : element_t), ⟨[2], 1⟩]) ∧
    ∃ l', q_swap (some [(⟨[1], 0⟩ : element_t), ⟨[2], 1⟩, ⟨[3], 2⟩]) = some l' ∧
      l'.getLast? = ([(⟨[1], 0⟩ : element_t), ⟨[2], 1⟩, ⟨[3], 2⟩]).getLast? ∧
      l'.length = ([(⟨[1], 0⟩ : element_t), ⟨[2], 1⟩, ⟨[3], 2⟩]).length :=
  ⟨claim_C6.2.2.1 _ (by decide), claim_C6.2.2.2.1 _ (by decide)⟩

/-- C7: the insert operations fail exactly when the list is NULL, the payload
pointer is NULL, or one of the two allocations fails; on failure the list is
unchanged and every allocation served was freed (no leak); on success a new
element holding a copy of the payload sits immediately after (head) or before
(tail) the sentinel. -/
theorem claim_C7 :
    ∀ (q : Queue) (s : Option Value) (m1 m2 : Bool) (node : Nat),
      ((q_insert_head q s m1 m2 node).1 = false ↔
        q = none ∨ s = none ∨ m1 = false ∨ m2 = false) ∧
      ((q_insert_tail q s m1 m2 node).1 = false ↔
        q = none ∨ s = none ∨ m1 = false ∨ m2 = false) ∧
      ((q_insert_head q s m1 m2 node).1 = false →
        (q_insert_head q s m1 m2 node).2.1 = q ∧
        (q_insert_head q s m1 m2 node).2.2.1 = (q_insert_head q s m1 m2 node).2.2.2) ∧
      ((q_insert_tail q s m1 m2 node).1 = false →
        (q_insert_tail q s m1 m2 node).2.1 = q ∧
        (q_insert_tail q s m1 m2 node).2.2.1 = (q_insert_tail q s m1 m2 node).2.2.2) ∧
      (∀ (l : List element_t) (sv : Value), q = some l → s = some sv →
        validValue sv → m1 = true → m2 = true →
        q_insert_head q s m1 m2 node = (true, some (⟨sv, node⟩ :: l), 2, 0) ∧
        q_insert_tail q s m1 m2 node = (true, some (l ++ [⟨sv, node⟩]), 2, 0)) := by
  intro q s m1 m2 node
  refine ⟨?_, ?_, ?_, ?_, ?_⟩
  · cases q <;> cases s <;> cases m1 <;> cases m2 <;>
      simp [q_insert_head, __q_insert]
  · cases q <;> cases s <;> cases m1 <;> cases m2 <;>
      simp [q_insert_tail, __q_insert]
  · cases q <;> cases s <;> cases m1 <;> cases m2 <;>
      simp [q_insert_head, __q_insert]
  · cases q <;> cases s <;> cases m1 <;> cases m2 <;>
      simp [q_insert_tail, __q_insert]
  · rintro l sv rfl rfl hval rfl rfl
    constructor
    · simp [q_insert_head, __q_insert, cstr_eq_self hval]
    · simp [q_insert_tail, __q_insert, cstr_eq_self hval]

/-- Witness for C7: a successful head and tail insert of `"a"` (byte 97)
into the empty queue. -/
theorem claim_C7_witness :
    q_insert_head (some []) (some [97]) true true 5 =
      (true, some [⟨[97], 5⟩], 2, 0) ∧
    q_insert_tail (some []) (some [97]) true true 5 =
      (true, some ([] ++ [⟨[97], 5⟩]), 2, 0) :=
  (claim_C7 (some []) (some [97]) true true 5).2.2.2.2 [] [97] rfl rfl
    (by decide) rfl rfl

/-- C8: the remove operations return NULL exactly when the list is absent or
empty; otherwise they unlink the first (resp. last) element and return it with
its payload intact, and when an out-buffer with positive capacity is supplied
they deposit at most `capacity - 1` payload bytes, NUL-terminated. -/
theorem claim_C8 :
    ∀ (q : Queue) (sp : Bool) (bufsize : Nat),
      ((q_remove_head q sp bufsize).1 = none ↔ q = none ∨ q = some []) ∧
      ((q_remove_tail q sp bufsize).1 = none ↔ q = none ∨ q = some []) ∧
      (∀ (x : element_t) (rest : List element_t), q = some (x :: rest) →
        (q_remove_head q sp bufsize).1 = some x ∧
        (q_remove_head q sp bufsize).2.1 = some rest ∧
        (sp = true → 0 < bufsize →
          (q_remove_head q sp bufsize).2.2 =
            some ((cstr x.value).take (bufsize - 1)) ∧
          ((cstr x.value).take (bufsize - 1)).length ≤ bufsize - 1)) ∧
      (∀ l : List element_t, ∀ hl : l ≠ [], q = some l →
        (q_remove_tail q sp bufsize).1 = some (l.getLast hl) ∧
        (q_remove_tail q sp bufsize).2.1 = some l.dropLast ∧
        (sp = true → 0 < bufsize →
          (q_remove_tail q sp bufsize).2.2 =
            some ((cstr (l.getLast hl).value).take (bufsize - 1)) ∧
          ((cstr (l.getLast hl).value).take (bufsize - 1)).length ≤ bufsize - 1)) := by
  intro q sp bufsize
  refine ⟨?_, ?_, ?_, ?_⟩
  · cases q with
    | none => simp [q_remove_head]
    | some l => cases l <;> simp [q_remove_head]
  · cases q with
    | none => simp [q_remove_tail]
    | some l => cases l <;> simp [q_remove_tail]
  · rintro x rest rfl
    refine ⟨rfl, rfl, fun hsp hbs => ?_⟩
    have hcond : (sp && (bufsize != 0)) = true := by
      rw [hsp]
      simp only [Bool.true_and, bne_iff_ne, ne_eq]
      omega
    constructor
    · simp only [q_remove_head, hcond, if_true]
    · exact List.length_take_le _ _
  · rintro l hl rfl
    cases l with
    | nil => exact absurd rfl hl
    | cons x rest =>
      refine ⟨rfl, rfl, fun hsp hbs => ?_⟩
      have hcond : (sp && (bufsize != 0)) = true := by
        rw [hsp]
        simp only [Bool.true_and, bne_iff_ne, ne_eq]
        omega
      constructor
      · simp only [q_remove_tail, hcond, if_true]
      · exact List.length_take_le _ _

/-- Witness for C8 at a one-element queue with a 2-byte buffer. -/
theorem claim_C8_witness :
    ((q_remove_tail (some [(⟨[97, 98], 3⟩ : element_t)]) true 2).1 =
      some (([(⟨[97, 98], 3⟩ : element_t)]).getLast (by decide)) ∧
    (q_remove_tail (some [(⟨[97, 98], 3⟩ : element_t)]) true 2).2.1 =
      some ([(⟨[97, 98], 3⟩ : element_t)]).dropLast ∧
    (true = true → 0 < 2 →
      (q_remove_tail (some [(⟨[97, 98], 3⟩ : element_t)]) true 2).2.2 =
        some ((cstr (([(⟨[97, 98], 3⟩ : element_t)]).getLast (by decide)).value).take (2 - 1)) ∧
      ((cstr (([(⟨[97, 98], 3⟩ : element_t)]).getLast (by decide)).value).take (2 - 1)).length ≤ 2 - 1)) :=
  (claim_C8 (some [(⟨[97, 98], 3⟩ : element_t)]) true 2).2.2.2
    [(⟨[97, 98], 3⟩ : element_t)] (by decide) rfl

/-- C9: `q_size` returns 0 for a NULL list and never fails; after any
sequence of insert and remove operations it returns, by full traversal,
exactly the number of elements currently linked in the ring. -/
theorem claim_C9 :
    q_size none = 0 ∧
    (∀ l : List element_t, q_size (some l) = l.length) ∧
    ∀ ops : List QOp, ∃ l, qexec ops = some l ∧ q_size (qexec ops) = l.length := by
  refine ⟨rfl, sizeLoop_eq_length, ?_⟩
  intro ops
  obtain ⟨l, hl⟩ := qexec_some ops
  exact ⟨l, hl, by rw [hl]; exact sizeLoop_eq_length l⟩

/-- C10: a NULL payload pointer makes both inserts fail without allocating,
leaving any list (even a NULL one) unchanged. -/
theorem claim_C10 :
    ∀ (q : Queue) (m1 m2 : Bool) (node : Nat),
      q_insert_head q none m1 m2 node = (false, q, 0, 0) ∧
      q_insert_tail q none m1 m2 node = (false, q, 0, 0) := by
  intro q m1 m2 node
  cases q <;> exact ⟨rfl, rfl⟩

/-- A heap holding the detached singly linked chain `0 → 1 → NULL`, as left
by `q_sort`'s merge phase just before the rebuild loop. -/
def chain_heap_ex : Heap :=
  ⟨fun z => if z = 0 then some 1 else none, fun _ => none⟩

/-- C4, counterexample to the claim as stated: after `q_new` (sentinel node 0,
self-linked) and one successful `q_insert_head` (pointer level: `list_add` of
fresh node 1 after the sentinel), the list is live and `q_size` reports 1,
but following `next` from the sentinel exactly size-many times lands on the
element node 1, not the sentinel — size + 1 steps are required. -/
theorem claim_C4_counterexample :
    ∃ h', list_add_ptr (q_new_heap 0) 1 0 = some h' ∧ isRing h' 0 [1] ∧
      q_size (some [⟨[97], 1⟩]) = 1 ∧
      followN h' (some 0) (q_size (some [⟨[97], 1⟩])) = some 1 ∧
      some 1 ≠ some 0 := by
  refine ⟨_, rfl, ⟨by decide, rfl, rfl, rfl, rfl, trivial⟩, rfl, rfl, by decide⟩

/-- C4 (amended): every queue operation preserves the closed-ring invariant,
where closure means: following `next` from the sentinel exactly size + 1
times returns to the sentinel (size steps reach the last element), no live
node's `next` or `prev` is NULL, and `node->next->prev == node` and
`node->prev->next == node` at every node.  The operations are covered at
pointer level: `list_add` after the sentinel (q_insert_head), `list_add_tail`
(q_insert_tail), `list_del` at any position (q_remove_head/tail,
q_delete_mid, q_delete_dup), the `q_reverse` do/while loop, the `q_swap`
del/add loop, and `q_sort`'s doubly-linked rebuild of whatever chain the
merge phase produced. -/
theorem claim_C4_amended :
    (∀ (h : Heap) (s : Nat) (ns : List Nat), isRing h s ns →
      (followN h (some s) (ns.length + 1) = some s ∧
        (∀ x ∈ s :: ns, h.next x ≠ none ∧ h.prev x ≠ none) ∧
        (∀ x ∈ s :: ns, (∃ y, h.next x = some y ∧ h.prev y = some x) ∧
          (∃ z, h.prev x = some z ∧ h.next z = some x))) ∧
      (∀ n, n ∉ s :: ns →
        (∃ h', list_add_ptr h n s = some h' ∧ isRing h' s (n :: ns)) ∧
        (∃ h', list_add_tail_ptr h n s = some h' ∧ isRing h' s (ns ++ [n]))) ∧
      (∀ u x v, ns = u ++ x :: v →
        ∃ h', list_del_ptr h x = some h' ∧ isRing h' s (u ++ v)) ∧
      (q_reverse_ptr h s (ns.length + 1) = some (swapOn h (s :: ns)) ∧
        isRing (swapOn h (s :: ns)) s ns.reverse) ∧
      (∀ p, h.next s = some p →
        ∃ h', swapLoop s (ns.length + 1) h p = some h' ∧
          isRing h' s (swapPairs ns))) ∧
    (∀ (head c0 : Nat) (cs' : List Nat) (h2 : Heap),
      (head :: c0 :: cs').Nodup → h2.next head = some c0 →
      slChain h2 (c0 :: cs') →
      ∃ h', rebuildLoop head ((c0 :: cs').length + 1) h2 head (h2.next head) =
        some h' ∧ isRing h' head (c0 :: cs')) := by
  constructor
  · intro h s ns hr
    refine ⟨isRing_closed hr, ?_, ?_, revLoop_ring hr, ?_⟩
    · intro n hn
      exact ⟨ring_add_head hr hn, ring_add_tail hr hn⟩
    · intro u x v hsplit
      exact ring_del (hsplit ▸ hr)
    · intro p hp
      have hhead : h.next s = some ((ns ++ [s]).head (by simp)) := by
        have hcl : chainLinks h ([] ++ s :: (ns ++ [s])) := hr.2
        exact (chainLinks_adjacent hcl (by simp)).1
      rw [hp] at hhead
      obtain rfl : p = (ns ++ [s]).head (by simp) := by simpa using hhead
      have := swapLoop_go ns [] h hr
      simpa using this
  · intro head c0 cs' h2 hnd hhd hsl
    exact rebuild_ring hnd hhd hsl

/-- Witness for the amended C4: the empty ring made by `q_new` (sentinel 0),
and the rebuild premise for the one-node chain `0 → 1 → NULL`. -/
theorem claim_C4_amended_witness :
    ((followN (q_new_heap 0) (some 0) 1 = some 0 ∧
      (∀ x ∈ [0], (q_new_heap 0).next x ≠ none ∧ (q_new_heap 0).prev x ≠ none) ∧
      (∀ x ∈ [0],
        (∃ y, (q_new_heap 0).next x = some y ∧ (q_new_heap 0).prev y = some x) ∧
        (∃ z, (q_new_heap 0).prev x = some z ∧ (q_new_heap 0).next z = some x))) ∧
     (∀ n, n ∉ [0] →
        (∃ h', list_add_ptr (q_new_heap 0) n 0 = some h' ∧ isRing h' 0 [n]) ∧
        (∃ h', list_add_tail_ptr (q_new_heap 0) n 0 = some h' ∧ isRing h' 0 [n])) ∧
     (∀ u x v, ([] : List Nat) = u ++ x :: v →
        ∃ h', list_del_ptr (q_new_heap 0) x = some h' ∧ isRing h' 0 (u ++ v)) ∧
     (q_reverse_ptr (q_new_heap 0) 0 1 = some (swapOn (q_new_heap 0) [0]) ∧
        isRing (swapOn (q_new_heap 0) [0]) 0 []) ∧
     (∀ p, (q_new_heap 0).next 0 = some p →
        ∃ h', swapLoop 0 1 (q_new_heap 0) p = some h' ∧ isRing h' 0 [])) ∧
    (∃ h', rebuildLoop 0 2 chain_heap_ex 0 (chain_heap_ex.next 0) = some h' ∧
      isRing h' 0 [1]) :=
  ⟨claim_C4_amended.1 (q_new_heap 0) 0 [] (q_new_heap_isRing 0),
   claim_C4_amended.2 0 1 [] chain_heap_ex (by decide) rfl rfl⟩

end Lab0
